import Mathlib

/-!
Verification of the ice-sliding puzzle generator.

The development embeds the data model and algorithms of
`ice-sliding-puzzle.cpp` (primary version, the one using sentinel
obstacles) and proves the specified properties about them.

Conventions of the embedding:
* coordinates are pairs `(x, y) : Int × Int`; the source packs them as
  `x + y*MAX_W`, an encoding that is bijective on the range the solver
  touches, so the pair form is the same data;
* the sentinel ring written by `init_sentinels` (obstacles at `y = -1`,
  `y = h`, `x = -1` and `x = w`) is represented by the predicate
  `pblocked`, which blocks every out-of-grid cell; the slide loops stop
  at the first blocked cell, so blocking the whole outside is
  observationally identical to blocking the one-cell ring;
* the scratch arrays `dists` / `pass_dists` become total functions
  `Cell → Nat`, initialised to `UNREACHABLE` as in the source;
* the C style `while` loops become fuel-indexed recursion with fuel large
  enough to be irrelevant (proved where needed).
-/

namespace IceSliding

/-- Maximum grid width, `MAX_W = 32` in the source. -/
def MAXW : Nat := 32

/-- Maximum grid height, `MAX_H = 32` in the source. -/
def MAXH : Nat := 32

/-- Sentinel distance value `UNREACHABLE = MAX_W * MAX_H + 1`. -/
def UNREACHABLE : Nat := MAXW * MAXH + 1

/-- A cell coordinate `(x, y)`. -/
abbrev Cell := Int × Int

/-- A puzzle: a grid of obstacle flags with dimensions `w × h` and a start
cell (struct `Puzzle` in the source). -/
structure Puzzle where
  w : Nat
  h : Nat
  start : Cell
  obstacle : Cell → Bool

/-- Whether a cell lies inside the `w × h` grid. -/
def inGrid (p : Puzzle) (c : Cell) : Bool :=
  0 ≤ c.1 && c.1 < (p.w : Int) && 0 ≤ c.2 && c.2 < (p.h : Int)

/-- Whether sliding movement is blocked at `c`: out-of-grid cells act as the
sentinel obstacles written by `init_sentinels`, in-grid cells consult the
obstacle flag. -/
def pblocked (p : Puzzle) (c : Cell) : Bool :=
  !inGrid p c || p.obstacle c

/-- The four movement directions, `deltas[] = {-1, 1, -MAX_W, MAX_W}` of the
source in `(x, y)` form: left, right, up, down. -/
def deltas : List Cell := [(-1, 0), (1, 0), (0, -1), (0, 1)]

/-- Coordinate addition. -/
def cadd (c d : Cell) : Cell := (c.1 + d.1, c.2 + d.2)

/-- The cells visited strictly after `c` when sliding from `c` in direction
`d` until hitting a blocked cell: exactly the cells `p2` receiving
`pass_dists` consideration in the inner `while` of `max_distance`. -/
def slideCells (blk : Cell → Bool) (d : Cell) : Cell → Nat → List Cell
  | _, 0 => []
  | c, fuel+1 =>
    let c2 := cadd c d
    if blk c2 then [] else c2 :: slideCells blk d c2 fuel

/-- Fuel that upper-bounds the length of any slide inside the grid. -/
def slideFuel (p : Puzzle) : Nat := p.w + p.h + 2

/-- Cells passed when sliding from `c` in direction `d` in puzzle `p`. -/
def path (p : Puzzle) (d c : Cell) : List Cell :=
  slideCells (pblocked p) d c (slideFuel p)

/-- The running position of the inner `while` of `max_distance`: advance
while the next cell is free. -/
def slideRest (blk : Cell → Bool) (d : Cell) : Cell → Nat → Cell
  | c, 0 => c
  | c, fuel+1 =>
    let c2 := cadd c d
    if blk c2 then c else slideRest blk d c2 fuel

/-- The resting cell of a slide from `c` in direction `d` (the value of `p`
after the inner `while` of `max_distance`); equals `c` itself when the very
first step is blocked. -/
def rest (p : Puzzle) (d c : Cell) : Cell :=
  slideRest (pblocked p) d c (slideFuel p)

/-- Pointwise update of a distance map. -/
def update (f : Cell → Nat) (c : Cell) (v : Nat) : Cell → Nat :=
  fun x => if x = c then v else f x

/-- The state of the breadth-first solver: the pending part of the FIFO
queue, the two distance maps and the running maximum. -/
structure SolveState where
  queue : List Cell
  dists : Cell → Nat
  passDists : Cell → Nat
  maxDist : Nat

/-- One `pass_dists[p2] > dist + 1` improvement step of the inner `while`
of `max_distance` (which also overwrites `max_dist` with `dist + 1`). -/
def passUpdate (dist : Nat) (s : SolveState) (c : Cell) : SolveState :=
  if dist + 1 < s.passDists c then
    { s with passDists := update s.passDists c (dist + 1), maxDist := dist + 1 }
  else s

/-- Process one direction from the dequeued cell `pos` at distance `dist`:
record pass-distances along the slide, then relax the resting cell's
stop-distance and enqueue it on improvement (the body of the `for i` loop
of `max_distance`). -/
def processDir (p : Puzzle) (dist : Nat) (pos : Cell) (s : SolveState) (d : Cell) :
    SolveState :=
  let s1 := (path p d pos).foldl (passUpdate dist) s
  let r := rest p d pos
  if dist + 1 < s1.dists r then
    { s1 with dists := update s1.dists r (dist + 1), queue := s1.queue ++ [r] }
  else s1

/-- Dequeue one cell and process all four directions (one iteration of the
outer `while` of `max_distance`). -/
def processCell (p : Puzzle) (s : SolveState) : SolveState :=
  match s.queue with
  | [] => s
  | pos :: q =>
    deltas.foldl (processDir p (s.dists pos) pos) { s with queue := q }

/-- The outer `while (queue_start < queue_end)` loop, fuelled. -/
def solveLoop (p : Puzzle) : Nat → SolveState → SolveState
  | 0, s => s
  | fuel+1, s =>
    match s.queue with
    | [] => s
    | _ :: _ => solveLoop p fuel (processCell p s)

/-- Initial solver state: the queue holds `start`,
`dists[start] = pass_dists[start] = 0`, all other entries `UNREACHABLE`,
`max_dist = 0`. -/
def initState (p : Puzzle) : SolveState :=
  { queue := [p.start]
    dists := update (fun _ => UNREACHABLE) p.start 0
    passDists := update (fun _ => UNREACHABLE) p.start 0
    maxDist := 0 }

/-- Fuel that upper-bounds the number of iterations of the BFS loop. -/
def solveFuel (p : Puzzle) : Nat := p.w * p.h * UNREACHABLE + 2

/-- `max_distance` from the source: breadth-first search over slide moves,
returning the final `max_dist`. -/
def max_distance (p : Puzzle) : Nat :=
  (solveLoop p (solveFuel p) (initState p)).maxDist

/-- Grid cells in the traversal order of `Puzzle::iterator` (row by row,
`x` fastest). -/
def cellsList (p : Puzzle) : List Cell :=
  (List.range p.h).flatMap (fun y => (List.range p.w).map (fun x => (Int.ofNat x, Int.ofNat y)))

/-- `Puzzle::count_obstacles`: the number of obstacle cells of the grid. -/
def count_obstacles (p : Puzzle) : Nat :=
  ((cellsList p).filter (fun c => p.obstacle c)).length

/-- An obstacle-free puzzle of the given dimensions and start cell. -/
def emptyPuzzle (w h : Nat) (s : Cell) : Puzzle := ⟨w, h, s, fun _ => false⟩

/-- A puzzle given by an explicit obstacle list. -/
def listPuzzle (w h : Nat) (s : Cell) (obs : List Cell) : Puzzle :=
  ⟨w, h, s, fun c => obs.contains c⟩

/-- One slide move in puzzle `p`: from `a`, slide in one of the four
directions and come to rest at `b`. -/
def Step (p : Puzzle) (a b : Cell) : Prop := ∃ d ∈ deltas, rest p d a = b

/-- `ReachFrom p a n b`: from cell `a`, some sequence of exactly `n` slide
moves rests at `b`. -/
inductive ReachFrom (p : Puzzle) (a : Cell) : Nat → Cell → Prop
  | refl : ReachFrom p a 0 a
  | step {n b c} : ReachFrom p a n b → Step p b c → ReachFrom p a (n+1) c

/-- Some slide trajectory of exactly `n` moves from the start rests at `c`. -/
def ReachN (p : Puzzle) (n : Nat) (c : Cell) : Prop := ReachFrom p p.start n c

/-- Some trajectory of at most `n` moves from the start rests at `c`. -/
def StopWithin (p : Puzzle) (n : Nat) (c : Cell) : Prop := ∃ m ≤ n, ReachN p m c

/-- Some trajectory of at most `n` moves from the start passes through or
rests at `c` (the start itself is passed by the empty trajectory; any other
passed-or-rested cell lies on the slide line of one of the moves). -/
def PassWithin (p : Puzzle) (n : Nat) (c : Cell) : Prop :=
  c = p.start ∨ ∃ m < n, ∃ q, ReachN p m q ∧ ∃ d ∈ deltas, c ∈ path p d q

/-- `v` is the pass-distance of `c`: the minimum number of slide moves of a
trajectory that passes through or rests at `c`. -/
def IsPassDist (p : Puzzle) (c : Cell) (v : Nat) : Prop :=
  PassWithin p v c ∧ ∀ m, PassWithin p m c → v ≤ m

/-- Position after `k` steps of one cell in direction `d`. -/
def cmul (c d : Cell) (k : Nat) : Cell := (c.1 + (k : Int) * d.1, c.2 + (k : Int) * d.2)

/-- The number of cells from `c` to the wall in direction `d`, a bound on the
number of free steps a slide from `c` can take. -/
def room (p : Puzzle) (d c : Cell) : Nat :=
  if d = ((1 : Int), (0 : Int)) then ((p.w : Int) - c.1).toNat
  else if d = ((-1 : Int), (0 : Int)) then (c.1 + 1).toNat
  else if d = ((0 : Int), (1 : Int)) then ((p.h : Int) - c.2).toNat
  else (c.2 + 1).toNat

example : max_distance (emptyPuzzle 1 1 (0, 0)) = 0 := by decide
example : max_distance (emptyPuzzle 2 2 (0, 0)) = 2 := by decide
example : max_distance (emptyPuzzle 1 3 (0, 1)) = 1 := by decide
example : max_distance (emptyPuzzle 3 1 (2, 0)) = 1 := by decide
example : max_distance (listPuzzle 3 3 (0, 0) [(1, 1)]) = 2 := by decide
example : max_distance (listPuzzle 3 3 (2, 2) [(0, 1), (1, 0)]) = 1 := by decide
example : max_distance (listPuzzle 4 3 (1, 2) [(3, 0)]) = 3 := by decide

/-! ### Basic lemmas about cells and slides -/

theorem cmul_zero (c d : Cell) : cmul c d 0 = c := by
  simp [cmul]

theorem cmul_one (c d : Cell) : cmul c d 1 = cadd c d := by
  simp [cmul, cadd]

theorem cmul_cadd (c d : Cell) (k : Nat) : cmul (cadd c d) d k = cmul c d (k + 1) := by
  simp only [cmul, cadd, Prod.mk.injEq]
  push_cast
  constructor <;> ring

theorem cadd_cmul (c d : Cell) (k : Nat) : cadd (cmul c d k) d = cmul c d (k + 1) := by
  simp only [cmul, cadd, Prod.mk.injEq]
  push_cast
  constructor <;> ring

theorem slideCells_zero (blk : Cell → Bool) (d c : Cell) :
    slideCells blk d c 0 = [] := rfl

theorem slideCells_succ (blk : Cell → Bool) (d c : Cell) (fuel : Nat) :
    slideCells blk d c (fuel + 1) =
      if blk (cadd c d) then [] else cadd c d :: slideCells blk d (cadd c d) fuel := rfl

theorem slideRest_zero (blk : Cell → Bool) (d c : Cell) :
    slideRest blk d c 0 = c := rfl

theorem slideRest_succ (blk : Cell → Bool) (d c : Cell) (fuel : Nat) :
    slideRest blk d c (fuel + 1) =
      if blk (cadd c d) then c else slideRest blk d (cadd c d) fuel := rfl

theorem not_pblocked_iff (p : Puzzle) (c : Cell) :
    pblocked p c = false ↔ inGrid p c = true ∧ p.obstacle c = false := by
  simp [pblocked]

theorem inGrid_of_not_pblocked {p : Puzzle} {c : Cell}
    (h : pblocked p c = false) : inGrid p c = true :=
  ((not_pblocked_iff p c).mp h).1

theorem inGrid_iff (p : Puzzle) (c : Cell) :
    inGrid p c = true ↔ 0 ≤ c.1 ∧ c.1 < (p.w : Int) ∧ 0 ≤ c.2 ∧ c.2 < (p.h : Int) := by
  simp [inGrid]
  tauto

theorem room_pos {p : Puzzle} {d c : Cell} (hc : inGrid p c = true) :
    0 < room p d c := by
  rw [inGrid_iff] at hc
  unfold room
  split
  · omega
  · split
    · omega
    · split
      · omega
      · omega

theorem room_le {p : Puzzle} {d c : Cell} (hc : inGrid p c = true) :
    room p d c ≤ p.w + p.h + 1 := by
  rw [inGrid_iff] at hc
  unfold room
  split
  · omega
  · split
    · omega
    · split
      · omega
      · omega

theorem room_decr {p : Puzzle} {d c : Cell} (hd : d ∈ deltas)
    (h2 : inGrid p (cadd c d) = true) : room p d (cadd c d) < room p d c := by
  rw [inGrid_iff] at h2
  simp only [deltas, List.mem_cons, List.not_mem_nil, or_false] at hd
  rcases hd with h | h | h | h <;>
    (subst h; simp only [cadd] at h2 ⊢; unfold room; norm_num; omega)

/-- Specification of the slide loop: it ends at some `cmul c d K` with every
intermediate cell free and the next cell blocked. -/
theorem slideRest_spec {p : Puzzle} {d : Cell} (hd : d ∈ deltas) :
    ∀ (fuel : Nat) (c : Cell), inGrid p c = true → room p d c ≤ fuel →
    ∃ K : Nat, slideRest (pblocked p) d c fuel = cmul c d K ∧
      (∀ j, 0 < j → j ≤ K → pblocked p (cmul c d j) = false) ∧
      pblocked p (cmul c d (K + 1)) = true := by
  intro fuel
  induction fuel with
  | zero =>
    intro c hc hroom
    exact absurd hroom (by have := room_pos (d := d) hc; omega)
  | succ fuel ih =>
    intro c hc hroom
    by_cases hblk : pblocked p (cadd c d) = true
    · refine ⟨0, ?_, ?_, ?_⟩
      · rw [cmul_zero, slideRest_succ, if_pos hblk]
      · intro j hj hj'; omega
      · rw [cmul_one]; exact hblk
    · have hblk' : pblocked p (cadd c d) = false := by
        simpa using hblk
      have hc2 : inGrid p (cadd c d) = true := inGrid_of_not_pblocked hblk'
      have hroom2 : room p d (cadd c d) ≤ fuel := by
        have := room_decr hd hc2; omega
      obtain ⟨K, hK, hfree, hblk2⟩ := ih (cadd c d) hc2 hroom2
      refine ⟨K + 1, ?_, ?_, ?_⟩
      · rw [slideRest_succ, if_neg hblk, ← cmul_cadd]
        exact hK
      · intro j hj hj'
        rcases Nat.eq_or_lt_of_le hj with h1 | h1
        · rw [← h1, cmul_one]; exact hblk'
        · have : j - 1 ≤ K := by omega
          have := hfree (j - 1) (by omega) this
          rwa [cmul_cadd, Nat.sub_add_cancel (by omega)] at this
      · rw [cmul_cadd] at hblk2
        exact hblk2

/-- Specification of `rest`. -/
theorem rest_spec {p : Puzzle} {d : Cell} (hd : d ∈ deltas) {c : Cell}
    (hc : inGrid p c = true) :
    ∃ K : Nat, rest p d c = cmul c d K ∧
      (∀ j, 0 < j → j ≤ K → pblocked p (cmul c d j) = false) ∧
      pblocked p (cmul c d (K + 1)) = true := by
  have hroom : room p d c ≤ slideFuel p := by
    have := room_le (d := d) hc; unfold slideFuel; omega
  exact slideRest_spec hd (slideFuel p) c hc hroom

theorem rest_inGrid {p : Puzzle} {d : Cell} (hd : d ∈ deltas) {c : Cell}
    (hc : inGrid p c = true) : inGrid p (rest p d c) = true := by
  obtain ⟨K, hK, hfree, _⟩ := rest_spec hd hc
  cases K with
  | zero => rw [hK, cmul_zero]; exact hc
  | succ K =>
    rw [hK]
    exact inGrid_of_not_pblocked (hfree (K + 1) (by omega) le_rfl)

theorem rest_next_blocked {p : Puzzle} {d : Cell} (hd : d ∈ deltas) {c : Cell}
    (hc : inGrid p c = true) : pblocked p (cadd (rest p d c) d) = true := by
  obtain ⟨K, hK, _, hblk⟩ := rest_spec hd hc
  rw [hK, cadd_cmul]
  exact hblk

/-- Every cell of a slide path is unblocked. -/
theorem path_not_blocked {p : Puzzle} {d c x : Cell}
    (hx : x ∈ path p d c) : pblocked p x = false := by
  unfold path at hx
  generalize slideFuel p = fuel at hx
  induction fuel generalizing c with
  | zero => simp [slideCells_zero] at hx
  | succ fuel ih =>
    rw [slideCells_succ] at hx
    by_cases hblk : pblocked p (cadd c d) = true
    · rw [if_pos hblk] at hx
      simp at hx
    · have hblk' : pblocked p (cadd c d) = false := by simpa using hblk
      rw [if_neg hblk] at hx
      rcases List.mem_cons.mp hx with h | h
      · rw [h]; exact hblk'
      · exact ih h

theorem path_inGrid {p : Puzzle} {d c x : Cell}
    (hx : x ∈ path p d c) : inGrid p x = true :=
  inGrid_of_not_pblocked (path_not_blocked hx)

/-- Membership in a slide path. -/
theorem mem_path_iff {p : Puzzle} {d : Cell} (hd : d ∈ deltas) {c : Cell}
    (hc : inGrid p c = true) (x : Cell) :
    x ∈ path p d c ↔ ∃ k : Nat, 0 < k ∧ x = cmul c d k ∧
      ∀ j, 0 < j → j ≤ k → pblocked p (cmul c d j) = false := by
  have main : ∀ (fuel : Nat) (c : Cell), inGrid p c = true → room p d c ≤ fuel →
      (x ∈ slideCells (pblocked p) d c fuel ↔ ∃ k : Nat, 0 < k ∧ x = cmul c d k ∧
        ∀ j, 0 < j → j ≤ k → pblocked p (cmul c d j) = false) := by
    intro fuel
    induction fuel with
    | zero =>
      intro c hc hroom
      exact absurd hroom (by have := room_pos (d := d) hc; omega)
    | succ fuel ih =>
      intro c hc hroom
      by_cases hblk : pblocked p (cadd c d) = true
      · rw [slideCells_succ, if_pos hblk]
        constructor
        · intro h; simp at h
        · rintro ⟨k, hk, _, hfree⟩
          have := hfree 1 (by omega) (by omega)
          rw [cmul_one] at this
          rw [this] at hblk
          exact absurd hblk (by simp)
      · have hblk' : pblocked p (cadd c d) = false := by simpa using hblk
        have hc2 : inGrid p (cadd c d) = true := inGrid_of_not_pblocked hblk'
        have hroom2 : room p d (cadd c d) ≤ fuel := by
          have := room_decr hd hc2; omega
        rw [slideCells_succ, if_neg hblk, List.mem_cons, ih (cadd c d) hc2 hroom2]
        constructor
        · rintro (h | ⟨k, hk, hx, hfree⟩)
          · exact ⟨1, by omega, by rw [h, cmul_one], by
              intro j hj hj'
              have : j = 1 := by omega
              rw [this, cmul_one]; exact hblk'⟩
          · refine ⟨k + 1, by omega, by rwa [cmul_cadd] at hx, ?_⟩
            intro j hj hj'
            rcases Nat.eq_or_lt_of_le hj with h1 | h1
            · rw [← h1, cmul_one]; exact hblk'
            · have := hfree (j - 1) (by omega) (by omega)
              rwa [cmul_cadd, Nat.sub_add_cancel (by omega)] at this
        · rintro ⟨k, hk, hx, hfree⟩
          rcases Nat.eq_or_lt_of_le hk with h1 | h1
          · left; rw [hx, ← h1, cmul_one]
          · right
            refine ⟨k - 1, by omega, ?_, ?_⟩
            · rw [cmul_cadd, Nat.sub_add_cancel (by omega)]; exact hx
            · intro j hj hj'
              rw [cmul_cadd]
              exact hfree (j + 1) (by omega) (by omega)
  have hroom : room p d c ≤ slideFuel p := by
    have := room_le (d := d) hc; unfold slideFuel; omega
  exact main (slideFuel p) c hc hroom

/-! ### Characterisation of one BFS iteration

`processCell` is a fold of `processDir` over the four directions, and each
`processDir` folds `passUpdate` over the slide path.  The lemmas below give
closed-form descriptions of the state after these folds. -/

theorem passUpdate_queue (v : Nat) (s : SolveState) (c : Cell) :
    (passUpdate v s c).queue = s.queue := by
  unfold passUpdate; split <;> rfl

theorem passUpdate_dists (v : Nat) (s : SolveState) (c : Cell) :
    (passUpdate v s c).dists = s.dists := by
  unfold passUpdate; split <;> rfl

theorem passUpdate_pass (v : Nat) (s : SolveState) (a c : Cell) :
    (passUpdate v s a).passDists c =
      if c = a ∧ v + 1 < s.passDists a then v + 1 else s.passDists c := by
  unfold passUpdate update
  by_cases h1 : v + 1 < s.passDists a
  · simp only [if_pos h1]
    by_cases h2 : c = a <;> simp [h2, h1]
  · simp only [if_neg h1]
    by_cases h2 : c = a <;> simp [h2, h1]

theorem passUpdate_max (v : Nat) (s : SolveState) (a : Cell) :
    (passUpdate v s a).maxDist =
      if v + 1 < s.passDists a then v + 1 else s.maxDist := by
  unfold passUpdate
  by_cases h1 : v + 1 < s.passDists a <;> simp [h1]

theorem foldl_passUpdate_queue (v : Nat) (l : List Cell) :
    ∀ s : SolveState, (l.foldl (passUpdate v) s).queue = s.queue := by
  induction l with
  | nil => intro s; rfl
  | cons a l ih => intro s; rw [List.foldl_cons, ih, passUpdate_queue]

theorem foldl_passUpdate_dists (v : Nat) (l : List Cell) :
    ∀ s : SolveState, (l.foldl (passUpdate v) s).dists = s.dists := by
  induction l with
  | nil => intro s; rfl
  | cons a l ih => intro s; rw [List.foldl_cons, ih, passUpdate_dists]

theorem foldl_passUpdate_pass (v : Nat) (l : List Cell) :
    ∀ (s : SolveState) (c : Cell), (l.foldl (passUpdate v) s).passDists c =
      if c ∈ l ∧ v + 1 < s.passDists c then v + 1 else s.passDists c := by
  induction l with
  | nil => intro s c; simp
  | cons a l ih =>
    intro s c
    rw [List.foldl_cons, ih, passUpdate_pass]
    by_cases hca : c = a
    · subst hca
      by_cases h1 : v + 1 < s.passDists c
      · simp [h1]
      · simp [h1]
    · rw [if_neg (by tauto : ¬(c = a ∧ v + 1 < s.passDists a))]
      by_cases h2 : c ∈ l
      · simp [List.mem_cons, hca, h2]
      · simp [List.mem_cons, hca, h2]

theorem foldl_passUpdate_max (v : Nat) (l : List Cell) :
    ∀ s : SolveState, (l.foldl (passUpdate v) s).maxDist =
      if ∃ c ∈ l, v + 1 < s.passDists c then v + 1 else s.maxDist := by
  induction l with
  | nil => intro s; simp
  | cons a l ih =>
    intro s
    rw [List.foldl_cons, ih]
    by_cases h1 : v + 1 < s.passDists a
    · have hex : ∃ c ∈ a :: l, v + 1 < s.passDists c := ⟨a, List.mem_cons_self a l, h1⟩
      rw [if_pos hex]
      by_cases h2 : ∃ c ∈ l, v + 1 < (passUpdate v s a).passDists c
      · rw [if_pos h2]
      · rw [if_neg h2, passUpdate_max, if_pos h1]
    · have heq : ∀ x, (passUpdate v s a).passDists x = s.passDists x := by
        intro x
        rw [passUpdate_pass, if_neg (by tauto)]
      have hmax : (passUpdate v s a).maxDist = s.maxDist := by
        rw [passUpdate_max, if_neg h1]
      by_cases h2 : ∃ c ∈ l, v + 1 < s.passDists c
      · rw [if_pos (by simpa [heq] using h2),
          if_pos (by
            obtain ⟨c, hc, hlt⟩ := h2
            exact ⟨c, List.mem_cons_of_mem a hc, hlt⟩)]
      · rw [if_neg (by simpa [heq] using h2), hmax, if_neg (by
          rintro ⟨c, hc, hlt⟩
          rcases List.mem_cons.mp hc with h | h
          · subst h; exact h1 hlt
          · exact h2 ⟨c, h, hlt⟩)]

theorem processDir_eq (p : Puzzle) (v : Nat) (pos : Cell) (s : SolveState) (d : Cell) :
    processDir p v pos s d =
      if v + 1 < ((path p d pos).foldl (passUpdate v) s).dists (rest p d pos) then
        { queue := ((path p d pos).foldl (passUpdate v) s).queue ++ [rest p d pos]
          dists := update ((path p d pos).foldl (passUpdate v) s).dists (rest p d pos) (v + 1)
          passDists := ((path p d pos).foldl (passUpdate v) s).passDists
          maxDist := ((path p d pos).foldl (passUpdate v) s).maxDist }
      else (path p d pos).foldl (passUpdate v) s := rfl

theorem processDir_dists (p : Puzzle) (v : Nat) (pos : Cell) (s : SolveState) (d : Cell)
    (c : Cell) : (processDir p v pos s d).dists c =
      if rest p d pos = c ∧ v + 1 < s.dists c then v + 1 else s.dists c := by
  rw [processDir_eq]
  by_cases h1 : v + 1 < ((path p d pos).foldl (passUpdate v) s).dists (rest p d pos)
  · rw [if_pos h1]
    rw [foldl_passUpdate_dists] at h1
    show update ((path p d pos).foldl (passUpdate v) s).dists (rest p d pos) (v + 1) c = _
    rw [foldl_passUpdate_dists]
    unfold update
    by_cases h2 : c = rest p d pos
    · subst h2
      rw [if_pos rfl, if_pos ⟨rfl, h1⟩]
    · rw [if_neg h2, if_neg (by tauto)]
  · rw [if_neg h1]
    rw [foldl_passUpdate_dists] at h1
    rw [foldl_passUpdate_dists]
    by_cases h2 : rest p d pos = c
    · subst h2; rw [if_neg (by tauto)]
    · rw [if_neg (by tauto)]

theorem processDir_queue (p : Puzzle) (v : Nat) (pos : Cell) (s : SolveState) (d : Cell) :
    ∃ app : List Cell, (processDir p v pos s d).queue = s.queue ++ app ∧
      app.Nodup ∧
      (∀ x ∈ app, rest p d pos = x ∧ v + 1 < s.dists x) ∧
      (∀ x, (processDir p v pos s d).dists x ≠ s.dists x → x ∈ app) := by
  have hdists := processDir_dists p v pos s d
  rw [processDir_eq]
  by_cases h1 : v + 1 < ((path p d pos).foldl (passUpdate v) s).dists (rest p d pos)
  · refine ⟨[rest p d pos], ?_, List.nodup_singleton _, ?_, ?_⟩
    · rw [if_pos h1]
      show ((path p d pos).foldl (passUpdate v) s).queue ++ [rest p d pos] = _
      rw [foldl_passUpdate_queue]
    · intro x hx
      rw [List.mem_singleton] at hx
      rw [foldl_passUpdate_dists] at h1
      subst hx
      exact ⟨rfl, h1⟩
    · intro x hx
      rw [List.mem_singleton]
      by_contra hne
      rw [processDir_eq] at hdists
      rw [hdists x, if_neg (fun h => hne h.1.symm)] at hx
      exact hx rfl
  · refine ⟨[], ?_, List.nodup_nil, by simp, ?_⟩
    · rw [if_neg h1, foldl_passUpdate_queue, List.append_nil]
    · intro x hx
      rw [foldl_passUpdate_dists] at h1
      rw [processDir_eq] at hdists
      rw [hdists x] at hx
      by_cases h2 : rest p d pos = x
      · subst h2
        rw [if_neg (by tauto)] at hx
        exact absurd rfl hx
      · rw [if_neg (by tauto)] at hx
        exact absurd rfl hx

theorem processDir_pass (p : Puzzle) (v : Nat) (pos : Cell) (s : SolveState) (d : Cell)
    (c : Cell) : (processDir p v pos s d).passDists c =
      if c ∈ path p d pos ∧ v + 1 < s.passDists c then v + 1 else s.passDists c := by
  rw [processDir_eq]
  by_cases h1 : v + 1 < ((path p d pos).foldl (passUpdate v) s).dists (rest p d pos)
  · rw [if_pos h1]
    show ((path p d pos).foldl (passUpdate v) s).passDists c = _
    rw [foldl_passUpdate_pass]
  · rw [if_neg h1]
    rw [foldl_passUpdate_pass]

theorem processDir_max (p : Puzzle) (v : Nat) (pos : Cell) (s : SolveState) (d : Cell) :
    (processDir p v pos s d).maxDist =
      if ∃ c ∈ path p d pos, v + 1 < s.passDists c then v + 1 else s.maxDist := by
  rw [processDir_eq]
  by_cases h1 : v + 1 < ((path p d pos).foldl (passUpdate v) s).dists (rest p d pos)
  · rw [if_pos h1]
    show ((path p d pos).foldl (passUpdate v) s).maxDist = _
    rw [foldl_passUpdate_max]
  · rw [if_neg h1]
    rw [foldl_passUpdate_max]

/-- Closed-form description of folding `processDir` over a list of
directions: the queue grows by a duplicate-free list of freshly improved
resting cells, stop- and pass-distances are capped at `v + 1` on the
relevant cells, and `max_dist` becomes `v + 1` exactly when some
pass-distance improved. -/
theorem foldl_processDir_spec (p : Puzzle) (v : Nat) (pos : Cell) (ds : List Cell) :
    ∀ s : SolveState, ∃ app : List Cell,
      (ds.foldl (processDir p v pos) s).queue = s.queue ++ app ∧
      app.Nodup ∧
      (∀ x ∈ app, (∃ d ∈ ds, rest p d pos = x) ∧ v + 1 < s.dists x) ∧
      (∀ x, (ds.foldl (processDir p v pos) s).dists x ≠ s.dists x → x ∈ app) ∧
      (∀ c, (ds.foldl (processDir p v pos) s).dists c =
        if (∃ d ∈ ds, rest p d pos = c) ∧ v + 1 < s.dists c then v + 1 else s.dists c) ∧
      (∀ c, (ds.foldl (processDir p v pos) s).passDists c =
        if (∃ d ∈ ds, c ∈ path p d pos) ∧ v + 1 < s.passDists c then v + 1
        else s.passDists c) ∧
      (((∃ c, (∃ d ∈ ds, c ∈ path p d pos) ∧ v + 1 < s.passDists c) →
          (ds.foldl (processDir p v pos) s).maxDist = v + 1) ∧
        (¬(∃ c, (∃ d ∈ ds, c ∈ path p d pos) ∧ v + 1 < s.passDists c) →
          (ds.foldl (processDir p v pos) s).maxDist = s.maxDist)) := by
  induction ds with
  | nil =>
    intro s
    exact ⟨[], by simp, List.nodup_nil, by simp, fun x hx => absurd rfl hx,
      by simp, by simp, by simp, by simp⟩
  | cons d ds ih =>
    intro s
    obtain ⟨a1, hq1, hnd1, ha1, hch1⟩ := processDir_queue p v pos s d
    obtain ⟨a2, hq2, hnd2, ha2, hch2, hd2, hp2, hm2p, hm2n⟩ := ih (processDir p v pos s d)
    have ha2' : ∀ x ∈ a2, (∃ d' ∈ ds, rest p d' pos = x) ∧ v + 1 < s.dists x := by
      intro x hx
      obtain ⟨hex, hlt⟩ := ha2 x hx
      rw [processDir_dists] at hlt
      refine ⟨hex, ?_⟩
      by_cases hA : rest p d pos = x ∧ v + 1 < s.dists x
      · rw [if_pos hA] at hlt; omega
      · rwa [if_neg hA] at hlt
    refine ⟨a1 ++ a2, ?_, ?_, ?_, ?_, ?_, ?_, ?_, ?_⟩
    · rw [List.foldl_cons, hq2, hq1, List.append_assoc]
    · rw [List.nodup_append]
      refine ⟨hnd1, hnd2, ?_⟩
      intro x hx1 hx2
      obtain ⟨hr1, hlt1⟩ := ha1 x hx1
      obtain ⟨_, hlt2⟩ := ha2 x hx2
      rw [processDir_dists, if_pos ⟨hr1, hlt1⟩] at hlt2
      omega
    · intro x hx
      rcases List.mem_append.mp hx with h | h
      · obtain ⟨hr, hlt⟩ := ha1 x h
        exact ⟨⟨d, List.mem_cons_self d ds, hr⟩, hlt⟩
      · obtain ⟨⟨d', hd', hr⟩, hlt⟩ := ha2' x h
        exact ⟨⟨d', List.mem_cons_of_mem d hd', hr⟩, hlt⟩
    · intro x hx
      rw [List.foldl_cons] at hx
      rw [List.mem_append]
      by_cases h : (ds.foldl (processDir p v pos) (processDir p v pos s d)).dists x =
          (processDir p v pos s d).dists x
      · left
        apply hch1
        intro heq
        exact hx (h.trans heq)
      · right
        exact hch2 x h
    · intro c
      rw [List.foldl_cons, hd2 c]
      by_cases hA : rest p d pos = c ∧ v + 1 < s.dists c
      · have h1 : (processDir p v pos s d).dists c = v + 1 := by
          rw [processDir_dists, if_pos hA]
        rw [h1, if_neg (by omega), if_pos ⟨⟨d, List.mem_cons_self d ds, hA.1⟩, hA.2⟩]
      · have h1 : (processDir p v pos s d).dists c = s.dists c := by
          rw [processDir_dists, if_neg hA]
        rw [h1]
        by_cases hB : (∃ d' ∈ ds, rest p d' pos = c) ∧ v + 1 < s.dists c
        · rw [if_pos hB]
          obtain ⟨⟨d', hd', hr⟩, hlt⟩ := hB
          rw [if_pos ⟨⟨d', List.mem_cons_of_mem d hd', hr⟩, hlt⟩]
        · rw [if_neg hB, if_neg ?_]
          rintro ⟨⟨d', hd', hr⟩, hlt⟩
          rcases List.mem_cons.mp hd' with h | h
          · subst h; exact hA ⟨hr, hlt⟩
          · exact hB ⟨⟨d', h, hr⟩, hlt⟩
    · intro c
      rw [List.foldl_cons, hp2 c]
      by_cases hA : c ∈ path p d pos ∧ v + 1 < s.passDists c
      · have h1 : (processDir p v pos s d).passDists c = v + 1 := by
          rw [processDir_pass, if_pos hA]
        rw [h1, if_neg (by omega), if_pos ⟨⟨d, List.mem_cons_self d ds, hA.1⟩, hA.2⟩]
      · have h1 : (processDir p v pos s d).passDists c = s.passDists c := by
          rw [processDir_pass, if_neg hA]
        rw [h1]
        by_cases hB : (∃ d' ∈ ds, c ∈ path p d' pos) ∧ v + 1 < s.passDists c
        · rw [if_pos hB]
          obtain ⟨⟨d', hd', hr⟩, hlt⟩ := hB
          rw [if_pos ⟨⟨d', List.mem_cons_of_mem d hd', hr⟩, hlt⟩]
        · rw [if_neg hB, if_neg ?_]
          rintro ⟨⟨d', hd', hr⟩, hlt⟩
          rcases List.mem_cons.mp hd' with h | h
          · subst h; exact hA ⟨hr, hlt⟩
          · exact hB ⟨⟨d', h, hr⟩, hlt⟩
    · rw [List.foldl_cons]
      rintro ⟨c, ⟨d', hd', hm⟩, hlt⟩
      have viaP : (∃ x ∈ path p d pos, v + 1 < s.passDists x) →
          (ds.foldl (processDir p v pos) (processDir p v pos s d)).maxDist = v + 1 := by
        intro hP
        by_cases hQ : ∃ x, (∃ d'' ∈ ds, x ∈ path p d'' pos) ∧
            v + 1 < (processDir p v pos s d).passDists x
        · exact hm2p hQ
        · rw [hm2n hQ, processDir_max, if_pos hP]
      rcases List.mem_cons.mp hd' with h | h
      · subst h
        exact viaP ⟨c, hm, hlt⟩
      · by_cases hA : c ∈ path p d pos ∧ v + 1 < s.passDists c
        · exact viaP ⟨c, hA.1, hA.2⟩
        · refine hm2p ⟨c, ⟨d', h, hm⟩, ?_⟩
          rw [processDir_pass, if_neg hA]
          exact hlt
    · rw [List.foldl_cons]
      intro hR
      have hP : ¬∃ x ∈ path p d pos, v + 1 < s.passDists x := by
        rintro ⟨x, hm, hlt⟩
        exact hR ⟨x, ⟨d, List.mem_cons_self d ds, hm⟩, hlt⟩
      have hs1pass : ∀ x, (processDir p v pos s d).passDists x = s.passDists x := by
        intro x
        rw [processDir_pass, if_neg (fun hA => hP ⟨x, hA.1, hA.2⟩)]
      have hQ : ¬∃ x, (∃ d'' ∈ ds, x ∈ path p d'' pos) ∧
          v + 1 < (processDir p v pos s d).passDists x := by
        rintro ⟨x, ⟨d'', hmem, hm⟩, hlt⟩
        rw [hs1pass] at hlt
        exact hR ⟨x, ⟨d'', List.mem_cons_of_mem d hmem, hm⟩, hlt⟩
      rw [hm2n hQ, processDir_max, if_neg hP]

/-! ### The grid as a finite set -/

/-- The finite set of grid cells. -/
def gridFinset (p : Puzzle) : Finset Cell :=
  ((Finset.range p.w) ×ˢ (Finset.range p.h)).image (fun q => ((q.1 : Int), (q.2 : Int)))

theorem mem_gridFinset (p : Puzzle) (c : Cell) :
    c ∈ gridFinset p ↔ inGrid p c = true := by
  simp only [gridFinset, Finset.mem_image, Finset.mem_product, Finset.mem_range, inGrid_iff]
  constructor
  · rintro ⟨⟨a, b⟩, ⟨ha, hb⟩, rfl⟩
    refine ⟨Int.natCast_nonneg a, ?_, Int.natCast_nonneg b, ?_⟩
    · show (a : Int) < (p.w : Int)
      exact_mod_cast ha
    · show (b : Int) < (p.h : Int)
      exact_mod_cast hb
  · rintro ⟨h1, h2, h3, h4⟩
    refine ⟨(c.1.toNat, c.2.toNat), ⟨by omega, by omega⟩, ?_⟩
    have e1 : (c.1.toNat : Int) = c.1 := Int.toNat_of_nonneg h1
    have e2 : (c.2.toNat : Int) = c.2 := Int.toNat_of_nonneg h3
    simp only [e1, e2]

theorem gridFinset_card (p : Puzzle) : (gridFinset p).card = p.w * p.h := by
  rw [gridFinset, Finset.card_image_of_injective, Finset.card_product,
    Finset.card_range, Finset.card_range]
  intro a b hab
  have h1 : (a.1 : Int) = (b.1 : Int) := congrArg Prod.fst hab
  have h2 : (a.2 : Int) = (b.2 : Int) := congrArg Prod.snd hab
  rw [Nat.cast_inj] at h1 h2
  exact Prod.ext h1 h2

/-! ### The solver invariant -/

/-- The invariant maintained by the BFS loop of `max_distance`.  The
`filter` set counts the cells already assigned a finite stop-distance. -/
structure Inv (p : Puzzle) (s : SolveState) : Prop where
  start_d : s.dists p.start = 0
  start_p : s.passDists p.start = 0
  grid_d : ∀ c, s.dists c ≠ UNREACHABLE → inGrid p c = true
  card_d : ∀ c, s.dists c ≠ UNREACHABLE →
    s.dists c < ((gridFinset p).filter (fun x => s.dists x ≠ UNREACHABLE)).card
  pass_le : ∀ c, s.passDists c ≠ UNREACHABLE →
    s.passDists c ≤ ((gridFinset p).filter (fun x => s.dists x ≠ UNREACHABLE)).card
  qfin : ∀ c ∈ s.queue, s.dists c ≠ UNREACHABLE
  qsort : s.queue.Pairwise (fun a b => s.dists a ≤ s.dists b)
  dbound : ∀ hd ∈ s.queue.head?, ∀ c, s.dists c ≠ UNREACHABLE →
    s.dists c ≤ s.dists hd + 1
  mbound : ∀ hd ∈ s.queue.head?, s.maxDist ≤ s.dists hd + 1
  mfin : s.maxDist ≤ p.w * p.h
  dsound : ∀ c, s.dists c ≠ UNREACHABLE → StopWithin p (s.dists c) c
  psound : ∀ c, s.passDists c ≠ UNREACHABLE → PassWithin p (s.passDists c) c
  drelax : ∀ c, s.dists c ≠ UNREACHABLE → c ∈ s.queue ∨
    ∀ d ∈ deltas, s.dists (rest p d c) ≤ s.dists c + 1
  prelax : ∀ c, s.dists c ≠ UNREACHABLE → c ∈ s.queue ∨
    ∀ d ∈ deltas, ∀ x ∈ path p d c, s.passDists x ≤ s.dists c + 1
  pcover : ∀ c, s.passDists c ≠ UNREACHABLE → s.passDists c ≤ s.maxDist
  mwit : ∃ c, s.passDists c = s.maxDist

theorem UNREACHABLE_eq : UNREACHABLE = 1025 := by decide

theorem initState_dists (p : Puzzle) (c : Cell) :
    (initState p).dists c = if c = p.start then 0 else UNREACHABLE := rfl

theorem initState_pass (p : Puzzle) (c : Cell) :
    (initState p).passDists c = if c = p.start then 0 else UNREACHABLE := rfl

theorem inv_init (p : Puzzle) (hs : inGrid p p.start = true) : Inv p (initState p) := by
  have hzero : (0 : Nat) ≠ UNREACHABLE := by rw [UNREACHABLE_eq]; omega
  have hval : ∀ c, (initState p).dists c ≠ UNREACHABLE → c = p.start ∧
      (initState p).dists c = 0 := by
    intro c hc
    rw [initState_dists] at hc ⊢
    by_cases h : c = p.start
    · exact ⟨h, by rw [if_pos h]⟩
    · rw [if_neg h] at hc; exact absurd rfl hc
  have hvalp : ∀ c, (initState p).passDists c ≠ UNREACHABLE → c = p.start ∧
      (initState p).passDists c = 0 := by
    intro c hc
    rw [initState_pass] at hc ⊢
    by_cases h : c = p.start
    · exact ⟨h, by rw [if_pos h]⟩
    · rw [if_neg h] at hc; exact absurd rfl hc
  have hstart_mem : p.start ∈ (gridFinset p).filter
      (fun x => (initState p).dists x ≠ UNREACHABLE) := by
    rw [Finset.mem_filter, mem_gridFinset]
    refine ⟨hs, ?_⟩
    rw [initState_dists, if_pos rfl]
    exact hzero
  have hcardpos : 0 < ((gridFinset p).filter
      (fun x => (initState p).dists x ≠ UNREACHABLE)).card :=
    Finset.card_pos.mpr ⟨p.start, hstart_mem⟩
  refine ⟨?_, ?_, ?_, ?_, ?_, ?_, ?_, ?_, ?_, ?_, ?_, ?_, ?_, ?_, ?_, ?_⟩
  · rw [initState_dists, if_pos rfl]
  · rw [initState_pass, if_pos rfl]
  · intro c hc; rw [(hval c hc).1]; exact hs
  · intro c hc; rw [(hval c hc).2]; exact hcardpos
  · intro c hc; rw [(hvalp c hc).2]; omega
  · intro c hc
    have hc' : c ∈ [p.start] := hc
    rw [List.mem_singleton] at hc'
    subst hc'
    rw [initState_dists, if_pos rfl]
    exact hzero
  · exact List.pairwise_singleton _ _
  · intro hd hhd c hc
    rw [(hval c hc).2]; omega
  · intro hd hhd
    show (0 : Nat) ≤ _ + 1
    omega
  · show (0 : Nat) ≤ p.w * p.h
    omega
  · intro c hc
    obtain ⟨hc1, hc2⟩ := hval c hc
    rw [hc2, hc1]
    exact ⟨0, le_rfl, ReachFrom.refl⟩
  · intro c hc
    obtain ⟨hc1, hc2⟩ := hvalp c hc
    rw [hc2, hc1]
    exact Or.inl rfl
  · intro c hc
    left
    rw [(hval c hc).1]
    exact List.mem_singleton.mpr rfl
  · intro c hc
    left
    rw [(hval c hc).1]
    exact List.mem_singleton.mpr rfl
  · intro c hc
    rw [(hvalp c hc).2]
    omega
  · exact ⟨p.start, by rw [initState_pass, if_pos rfl]; rfl⟩

theorem processCell_eq (p : Puzzle) (s : SolveState) (pos : Cell) (q : List Cell)
    (hq : s.queue = pos :: q) :
    processCell p s =
      deltas.foldl (processDir p (s.dists pos) pos) { s with queue := q } := by
  unfold processCell
  rw [hq]

/-- Preservation of the solver invariant by one iteration of the BFS loop. -/
theorem inv_processCell {p : Puzzle} {s : SolveState} (hwh : p.w * p.h < UNREACHABLE)
    (hInv : Inv p s) (pos : Cell) (q : List Cell) (hq : s.queue = pos :: q) :
    Inv p (processCell p s) := by
  have hpc := processCell_eq p s pos q hq
  obtain ⟨app, hQ, hND, hAPP, hCH, hD, hP, hMp, hMn⟩ :=
    foldl_processDir_spec p (s.dists pos) pos deltas { s with queue := q }
  have e1 : ({ s with queue := q } : SolveState).dists = s.dists := rfl
  have e2 : ({ s with queue := q } : SolveState).passDists = s.passDists := rfl
  have e3 : ({ s with queue := q } : SolveState).maxDist = s.maxDist := rfl
  have e4 : ({ s with queue := q } : SolveState).queue = q := rfl
  rw [← hpc] at hQ hCH hD hP hMp hMn
  simp only [e1, e2, e3, e4] at hQ hAPP hCH hD hP hMp hMn
  -- basic facts about the dequeued cell
  have hhd : pos ∈ s.queue.head? := by rw [hq]; rfl
  have hvfin : s.dists pos ≠ UNREACHABLE :=
    hInv.qfin pos (by rw [hq]; exact List.mem_cons_self pos q)
  have hvcard : s.dists pos <
      ((gridFinset p).filter (fun x => s.dists x ≠ UNREACHABLE)).card :=
    hInv.card_d pos hvfin
  have hFle : ((gridFinset p).filter (fun x => s.dists x ≠ UNREACHABLE)).card ≤
      p.w * p.h := by
    calc ((gridFinset p).filter (fun x => s.dists x ≠ UNREACHABLE)).card
        ≤ (gridFinset p).card := Finset.card_filter_le _ _
      _ = p.w * p.h := gridFinset_card p
  have hposgrid : inGrid p pos = true := hInv.grid_d pos hvfin
  have hdbound : ∀ c, s.dists c ≠ UNREACHABLE → s.dists c ≤ s.dists pos + 1 :=
    fun c hc => hInv.dbound pos hhd c hc
  have hmbound : s.maxDist ≤ s.dists pos + 1 := hInv.mbound pos hhd
  have hpassbound : ∀ c, s.passDists c ≠ UNREACHABLE →
      s.passDists c ≤ s.dists pos + 1 :=
    fun c hc => le_trans (hInv.pcover c hc) hmbound
  have hv1 : s.dists pos + 1 ≤ p.w * p.h := by omega
  have hv1fin : s.dists pos + 1 ≠ UNREACHABLE := by omega
  have hzero_ne : (0 : Nat) ≠ UNREACHABLE := by rw [UNREACHABLE_eq]; omega
  -- pointwise behaviour of the stop-distances
  have hDle : ∀ c, (processCell p s).dists c ≤ s.dists c := by
    intro c
    rw [hD c]
    split_ifs with h
    · exact le_of_lt h.2
    · exact le_rfl
  have hDold : ∀ c, s.dists c ≠ UNREACHABLE → (processCell p s).dists c = s.dists c := by
    intro c hc
    rw [hD c, if_neg ?_]
    rintro ⟨_, hlt⟩
    have := hdbound c hc
    omega
  have hDnew : ∀ c, (processCell p s).dists c ≠ s.dists c →
      (processCell p s).dists c = s.dists pos + 1 ∧ s.dists c = UNREACHABLE ∧
        ∃ d ∈ deltas, rest p d pos = c := by
    intro c hne
    by_cases hc : s.dists c = UNREACHABLE
    · rw [hD c] at hne ⊢
      by_cases hcond : (∃ d ∈ deltas, rest p d pos = c) ∧ s.dists pos + 1 < s.dists c
      · rw [if_pos hcond]
        exact ⟨rfl, hc, hcond.1⟩
      · rw [if_neg hcond] at hne
        exact absurd rfl hne
    · exact absurd (hDold c hc) hne
  have hDcase : ∀ c, (processCell p s).dists c = s.dists c ∨
      ((processCell p s).dists c = s.dists pos + 1 ∧ s.dists c = UNREACHABLE ∧
        ∃ d ∈ deltas, rest p d pos = c) := by
    intro c
    by_cases h : (processCell p s).dists c = s.dists c
    · exact Or.inl h
    · exact Or.inr (hDnew c h)
  -- pointwise behaviour of the pass-distances
  have hPle : ∀ c, (processCell p s).passDists c ≤ s.passDists c := by
    intro c
    rw [hP c]
    split_ifs with h
    · exact le_of_lt h.2
    · exact le_rfl
  have hPold : ∀ c, s.passDists c ≠ UNREACHABLE →
      (processCell p s).passDists c = s.passDists c := by
    intro c hc
    rw [hP c, if_neg ?_]
    rintro ⟨_, hlt⟩
    have := hpassbound c hc
    omega
  have hPnew : ∀ c, (processCell p s).passDists c ≠ s.passDists c →
      (processCell p s).passDists c = s.dists pos + 1 ∧
        s.passDists c = UNREACHABLE ∧ ∃ d ∈ deltas, c ∈ path p d pos := by
    intro c hne
    by_cases hc : s.passDists c = UNREACHABLE
    · rw [hP c] at hne ⊢
      by_cases hcond : (∃ d ∈ deltas, c ∈ path p d pos) ∧
          s.dists pos + 1 < s.passDists c
      · rw [if_pos hcond]
        exact ⟨rfl, hc, hcond.1⟩
      · rw [if_neg hcond] at hne
        exact absurd rfl hne
    · exact absurd (hPold c hc) hne
  have hPcase : ∀ c, (processCell p s).passDists c = s.passDists c ∨
      ((processCell p s).passDists c = s.dists pos + 1 ∧
        s.passDists c = UNREACHABLE ∧ ∃ d ∈ deltas, c ∈ path p d pos) := by
    intro c
    by_cases h : (processCell p s).passDists c = s.passDists c
    · exact Or.inl h
    · exact Or.inr (hPnew c h)
  -- appended queue elements
  have happ_val : ∀ x ∈ app, (processCell p s).dists x = s.dists pos + 1 ∧
      s.dists x = UNREACHABLE ∧ ∃ d ∈ deltas, rest p d pos = x := by
    intro x hx
    obtain ⟨hex, hlt⟩ := hAPP x hx
    have hxU : s.dists x = UNREACHABLE := by
      by_contra hfin
      have := hdbound x hfin
      omega
    exact ⟨by rw [hD x, if_pos ⟨hex, hlt⟩], hxU, hex⟩
  -- the set of finitely-distanced cells grows
  have hFsub : (gridFinset p).filter (fun x => s.dists x ≠ UNREACHABLE) ⊆
      (gridFinset p).filter (fun x => (processCell p s).dists x ≠ UNREACHABLE) := by
    intro c hc
    rw [Finset.mem_filter] at hc
    rw [Finset.mem_filter]
    exact ⟨hc.1, by rw [hDold c hc.2]; exact hc.2⟩
  have hFcard : ((gridFinset p).filter (fun x => s.dists x ≠ UNREACHABLE)).card ≤
      ((gridFinset p).filter (fun x => (processCell p s).dists x ≠ UNREACHABLE)).card :=
    Finset.card_le_card hFsub
  -- maximum distance behaviour
  have hmax_cases : ((processCell p s).maxDist = s.maxDist ∧
        ∀ c, (processCell p s).passDists c = s.passDists c) ∨
      ((processCell p s).maxDist = s.dists pos + 1 ∧
        ∃ c, (processCell p s).passDists c = s.dists pos + 1) := by
    by_cases hEx : ∃ c, (∃ d ∈ deltas, c ∈ path p d pos) ∧
        s.dists pos + 1 < s.passDists c
    · right
      refine ⟨hMp hEx, ?_⟩
      obtain ⟨c, hcond, hlt⟩ := hEx
      exact ⟨c, by rw [hP c, if_pos ⟨hcond, hlt⟩]⟩
    · left
      refine ⟨hMn hEx, ?_⟩
      intro c
      rw [hP c, if_neg (fun h => hEx ⟨c, h.1, h.2⟩)]
  have hmax_le : (processCell p s).maxDist ≤ s.dists pos + 1 := by
    rcases hmax_cases with ⟨h, _⟩ | ⟨h, _⟩
    · rw [h]; exact hmbound
    · rw [h]
  -- head of the new queue is at least as distant as `pos`
  have hheads : ∀ hd, hd ∈ ((processCell p s).queue).head? →
      s.dists pos ≤ (processCell p s).dists hd := by
    intro hd hhd'
    rw [hQ] at hhd'
    cases q with
    | nil =>
      cases app with
      | nil => simp at hhd'
      | cons a tl =>
        simp only [List.nil_append, List.head?_cons, Option.mem_def,
          Option.some.injEq] at hhd'
        subst hhd'
        rw [(happ_val a (List.mem_cons_self a tl)).1]
        omega
    | cons q0 qt =>
      simp only [List.cons_append, List.head?_cons, Option.mem_def,
        Option.some.injEq] at hhd'
      subst hhd'
      have hq0fin : s.dists q0 ≠ UNREACHABLE :=
        hInv.qfin q0 (by rw [hq]; exact List.mem_cons_of_mem pos (List.mem_cons_self q0 qt))
      rw [hDold q0 hq0fin]
      have hsorted := hInv.qsort
      rw [hq] at hsorted
      exact (List.pairwise_cons.mp hsorted).1 q0 (List.mem_cons_self q0 qt)
  have hbound' : ∀ c, (processCell p s).dists c ≠ UNREACHABLE →
      (processCell p s).dists c ≤ s.dists pos + 1 := by
    intro c hc
    rcases hDcase c with h | ⟨hn, _, _⟩
    · rw [h] at hc ⊢
      exact hdbound c hc
    · rw [hn]
  refine ⟨?_, ?_, ?_, ?_, ?_, ?_, ?_, ?_, ?_, ?_, ?_, ?_, ?_, ?_, ?_, ?_⟩
  · rw [hDold p.start (by rw [hInv.start_d]; exact hzero_ne), hInv.start_d]
  · rw [hPold p.start (by rw [hInv.start_p]; exact hzero_ne), hInv.start_p]
  · intro c hc
    rcases hDcase c with h | ⟨_, _, d, hd, hr⟩
    · rw [h] at hc
      exact hInv.grid_d c hc
    · rw [← hr]
      exact rest_inGrid hd hposgrid
  · intro c hc
    rcases hDcase c with h | ⟨hn, hU, hex⟩
    · rw [h] at hc ⊢
      exact lt_of_lt_of_le (hInv.card_d c hc) hFcard
    · have hcgrid : inGrid p c = true := by
        obtain ⟨d, hd, hr⟩ := hex
        rw [← hr]
        exact rest_inGrid hd hposgrid
      have hcF' : c ∈ (gridFinset p).filter
          (fun x => (processCell p s).dists x ≠ UNREACHABLE) := by
        rw [Finset.mem_filter, mem_gridFinset]
        exact ⟨hcgrid, by rw [hn]; exact hv1fin⟩
      have hcF : c ∉ (gridFinset p).filter (fun x => s.dists x ≠ UNREACHABLE) := by
        rw [Finset.mem_filter]
        rintro ⟨_, hfin⟩
        exact hfin hU
      have hlt : ((gridFinset p).filter (fun x => s.dists x ≠ UNREACHABLE)).card <
          ((gridFinset p).filter
            (fun x => (processCell p s).dists x ≠ UNREACHABLE)).card :=
        Finset.card_lt_card ((Finset.ssubset_iff_of_subset hFsub).mpr ⟨c, hcF', hcF⟩)
      rw [hn]
      omega
  · intro c hc
    rcases hPcase c with h | ⟨hn, _, _⟩
    · rw [h] at hc ⊢
      exact le_trans (hInv.pass_le c hc) hFcard
    · rw [hn]
      omega
  · intro c hc
    rw [hQ] at hc
    rcases List.mem_append.mp hc with h | h
    · have hfin : s.dists c ≠ UNREACHABLE :=
        hInv.qfin c (by rw [hq]; exact List.mem_cons_of_mem pos h)
      rw [hDold c hfin]
      exact hfin
    · rw [(happ_val c h).1]
      exact hv1fin
  · rw [hQ, List.pairwise_append]
    refine ⟨?_, ?_, ?_⟩
    · have hold : q.Pairwise (fun a b => s.dists a ≤ s.dists b) := by
        have hsorted := hInv.qsort
        rw [hq] at hsorted
        exact (List.pairwise_cons.mp hsorted).2
      refine List.Pairwise.imp_of_mem ?_ hold
      intro a b ha hb hr
      have hafin : s.dists a ≠ UNREACHABLE :=
        hInv.qfin a (by rw [hq]; exact List.mem_cons_of_mem pos ha)
      have hbfin : s.dists b ≠ UNREACHABLE :=
        hInv.qfin b (by rw [hq]; exact List.mem_cons_of_mem pos hb)
      rw [hDold a hafin, hDold b hbfin]
      exact hr
    · refine List.Pairwise.imp_of_mem ?_ hND
      intro a b ha hb _
      rw [(happ_val a ha).1, (happ_val b hb).1]
    · intro a ha b hb
      have hafin : s.dists a ≠ UNREACHABLE :=
        hInv.qfin a (by rw [hq]; exact List.mem_cons_of_mem pos ha)
      rw [hDold a hafin, (happ_val b hb).1]
      exact hdbound a hafin
  · intro hd hhd' c hc
    have h1 := hheads hd hhd'
    have h2 := hbound' c hc
    omega
  · intro hd hhd'
    have h1 := hheads hd hhd'
    omega
  · rcases hmax_cases with ⟨h, _⟩ | ⟨h, _⟩
    · rw [h]
      exact hInv.mfin
    · rw [h]
      omega
  · intro c hc
    rcases hDcase c with h | ⟨hn, _, d, hd, hr⟩
    · rw [h] at hc ⊢
      exact hInv.dsound c hc
    · rw [hn]
      obtain ⟨m, hm, hreach⟩ := hInv.dsound pos hvfin
      exact ⟨m + 1, by omega, ReachFrom.step hreach ⟨d, hd, hr⟩⟩
  · intro c hc
    rcases hPcase c with h | ⟨hn, _, d, hd, hmem⟩
    · rw [h] at hc ⊢
      exact hInv.psound c hc
    · rw [hn]
      obtain ⟨m, hm, hreach⟩ := hInv.dsound pos hvfin
      exact Or.inr ⟨m, by omega, pos, hreach, d, hd, hmem⟩
  · intro c hc
    by_cases hchg : (processCell p s).dists c = s.dists c
    · rw [hchg] at hc
      by_cases hcpos : c = pos
      · subst hcpos
        right
        intro d hd
        rw [hchg, hD (rest p d c)]
        by_cases hcond : (∃ d' ∈ deltas, rest p d' c = rest p d c) ∧
            s.dists c + 1 < s.dists (rest p d c)
        · rw [if_pos hcond]
        · rw [if_neg hcond]
          have hnlt : ¬(s.dists c + 1 < s.dists (rest p d c)) :=
            fun hlt => hcond ⟨⟨d, hd, rfl⟩, hlt⟩
          omega
      · rcases hInv.drelax c hc with hmem | hrel
        · rw [hq] at hmem
          rcases List.mem_cons.mp hmem with h | h
          · exact absurd h hcpos
          · left
            rw [hQ]
            exact List.mem_append.mpr (Or.inl h)
        · right
          intro d hd
          calc (processCell p s).dists (rest p d c) ≤ s.dists (rest p d c) := hDle _
            _ ≤ s.dists c + 1 := hrel d hd
            _ = (processCell p s).dists c + 1 := by rw [hchg]
    · left
      rw [hQ]
      exact List.mem_append.mpr (Or.inr (hCH c hchg))
  · intro c hc
    by_cases hchg : (processCell p s).dists c = s.dists c
    · rw [hchg] at hc
      by_cases hcpos : c = pos
      · subst hcpos
        right
        intro d hd x hx
        rw [hchg, hP x]
        by_cases hcond : (∃ d' ∈ deltas, x ∈ path p d' c) ∧
            s.dists c + 1 < s.passDists x
        · rw [if_pos hcond]
        · rw [if_neg hcond]
          have hnlt : ¬(s.dists c + 1 < s.passDists x) :=
            fun hlt => hcond ⟨⟨d, hd, hx⟩, hlt⟩
          omega
      · rcases hInv.prelax c hc with hmem | hrel
        · rw [hq] at hmem
          rcases List.mem_cons.mp hmem with h | h
          · exact absurd h hcpos
          · left
            rw [hQ]
            exact List.mem_append.mpr (Or.inl h)
        · right
          intro d hd x hx
          calc (processCell p s).passDists x ≤ s.passDists x := hPle _
            _ ≤ s.dists c + 1 := hrel d hd x hx
            _ = (processCell p s).dists c + 1 := by rw [hchg]
    · left
      rw [hQ]
      exact List.mem_append.mpr (Or.inr (hCH c hchg))
  · intro c hc
    rcases hmax_cases with ⟨hm, hpeq⟩ | ⟨hm, _⟩
    · rw [hm, hpeq c]
      rw [hpeq c] at hc
      exact hInv.pcover c hc
    · rw [hm]
      rcases hPcase c with h | ⟨hn, _, _⟩
      · rw [h] at hc ⊢
        exact le_trans (hInv.pcover c hc) hmbound
      · rw [hn]
  · rcases hmax_cases with ⟨hm, hpeq⟩ | ⟨hm, hwit⟩
    · obtain ⟨c0, hc0⟩ := hInv.mwit
      exact ⟨c0, by rw [hpeq c0, hm]; exact hc0⟩
    · obtain ⟨c0, hc0⟩ := hwit
      exact ⟨c0, by rw [hc0, hm]⟩

/-! ### Termination of the BFS loop -/

/-- Decreasing measure for the BFS loop: total stored distance plus the
pending queue length. -/
def bfsMeasure (p : Puzzle) (s : SolveState) : Nat :=
  (∑ c ∈ gridFinset p, s.dists c) + s.queue.length

theorem bfsMeasure_decr {p : Puzzle} {s : SolveState} (hwh : p.w * p.h < UNREACHABLE)
    (hInv : Inv p s) (pos : Cell) (q : List Cell) (hq : s.queue = pos :: q) :
    bfsMeasure p (processCell p s) < bfsMeasure p s := by
  have hpc := processCell_eq p s pos q hq
  obtain ⟨app, hQ, hND, hAPP, hCH, hD, hP, hMp, hMn⟩ :=
    foldl_processDir_spec p (s.dists pos) pos deltas { s with queue := q }
  have e1 : ({ s with queue := q } : SolveState).dists = s.dists := rfl
  have e4 : ({ s with queue := q } : SolveState).queue = q := rfl
  rw [← hpc] at hQ hCH hD
  simp only [e1, e4] at hQ hAPP hD
  have hhd : pos ∈ s.queue.head? := by rw [hq]; rfl
  have hvfin : s.dists pos ≠ UNREACHABLE :=
    hInv.qfin pos (by rw [hq]; exact List.mem_cons_self pos q)
  have hvcard : s.dists pos <
      ((gridFinset p).filter (fun x => s.dists x ≠ UNREACHABLE)).card :=
    hInv.card_d pos hvfin
  have hFle : ((gridFinset p).filter (fun x => s.dists x ≠ UNREACHABLE)).card ≤
      p.w * p.h := by
    calc ((gridFinset p).filter (fun x => s.dists x ≠ UNREACHABLE)).card
        ≤ (gridFinset p).card := Finset.card_filter_le _ _
      _ = p.w * p.h := gridFinset_card p
  have hposgrid : inGrid p pos = true := hInv.grid_d pos hvfin
  have hdbound : ∀ c, s.dists c ≠ UNREACHABLE → s.dists c ≤ s.dists pos + 1 :=
    fun c hc => hInv.dbound pos hhd c hc
  have hDle : ∀ c, (processCell p s).dists c ≤ s.dists c := by
    intro c
    rw [hD c]
    split_ifs with h
    · exact le_of_lt h.2
    · exact le_rfl
  have happ_val : ∀ x ∈ app, (processCell p s).dists x + 1 ≤ s.dists x ∧
      inGrid p x = true := by
    intro x hx
    obtain ⟨hex, hlt⟩ := hAPP x hx
    refine ⟨?_, ?_⟩
    · rw [hD x, if_pos ⟨hex, hlt⟩]
      omega
    · obtain ⟨d, hd, hr⟩ := hex
      rw [← hr]
      exact rest_inGrid hd hposgrid
  have happ_sub : app.toFinset ⊆ gridFinset p := by
    intro x hx
    rw [List.mem_toFinset] at hx
    rw [mem_gridFinset]
    exact (happ_val x hx).2
  have hsum : (∑ c ∈ gridFinset p, (processCell p s).dists c) + app.length ≤
      ∑ c ∈ gridFinset p, s.dists c := by
    have hlen : app.length = app.toFinset.card := (List.toFinset_card_of_nodup hND).symm
    have hindsum : (∑ c ∈ gridFinset p, (if c ∈ app.toFinset then 1 else 0)) =
        app.toFinset.card := by
      rw [Finset.sum_boole]
      norm_num
      have hfeq : Finset.filter (fun x => x ∈ app) (gridFinset p) = app.toFinset := by
        ext x
        simp only [Finset.mem_filter, List.mem_toFinset]
        exact ⟨fun h => h.2, fun h => ⟨happ_sub (List.mem_toFinset.mpr h), h⟩⟩
      rw [hfeq]
    have hpt : ∀ c ∈ gridFinset p,
        (processCell p s).dists c + (if c ∈ app.toFinset then 1 else 0) ≤ s.dists c := by
      intro c hc
      by_cases hca : c ∈ app.toFinset
      · rw [if_pos hca]
        rw [List.mem_toFinset] at hca
        exact (happ_val c hca).1
      · rw [if_neg hca]
        have := hDle c
        omega
    calc (∑ c ∈ gridFinset p, (processCell p s).dists c) + app.length
        = ∑ c ∈ gridFinset p,
            ((processCell p s).dists c + (if c ∈ app.toFinset then 1 else 0)) := by
          rw [Finset.sum_add_distrib, hindsum, hlen]
      _ ≤ ∑ c ∈ gridFinset p, s.dists c := Finset.sum_le_sum hpt
  have hqlen : (processCell p s).queue.length = q.length + app.length := by
    rw [hQ, List.length_append]
  unfold bfsMeasure
  rw [hqlen, hq]
  simp only [List.length_cons]
  omega

theorem solveLoop_inv_empty {p : Puzzle} (hwh : p.w * p.h < UNREACHABLE) :
    ∀ (fuel : Nat) (s : SolveState), Inv p s → bfsMeasure p s < fuel →
      Inv p (solveLoop p fuel s) ∧ (solveLoop p fuel s).queue = [] := by
  intro fuel
  induction fuel with
  | zero =>
    intro s _ h
    omega
  | succ fuel ih =>
    intro s hInv hm
    cases hq : s.queue with
    | nil =>
      rw [solveLoop, hq]
      exact ⟨hInv, hq⟩
    | cons pos q =>
      rw [solveLoop, hq]
      have hdec := bfsMeasure_decr hwh hInv pos q hq
      exact ih (processCell p s) (inv_processCell hwh hInv pos q hq) (by omega)

theorem bfsMeasure_init_lt (p : Puzzle) : bfsMeasure p (initState p) < solveFuel p := by
  unfold bfsMeasure solveFuel
  have hpt : ∀ c ∈ gridFinset p, (initState p).dists c ≤ UNREACHABLE := by
    intro c _
    rw [initState_dists]
    split_ifs
    · omega
    · exact le_rfl
  have hsum : (∑ c ∈ gridFinset p, (initState p).dists c) ≤ p.w * p.h * UNREACHABLE := by
    calc (∑ c ∈ gridFinset p, (initState p).dists c)
        ≤ (gridFinset p).card • UNREACHABLE := Finset.sum_le_card_nsmul _ _ _ hpt
      _ = p.w * p.h * UNREACHABLE := by rw [gridFinset_card, smul_eq_mul]
  have hlen : (initState p).queue.length = 1 := rfl
  omega

/-! ### Extraction of the final answer -/

theorem final_correct {p : Puzzle} (hwh : p.w * p.h < UNREACHABLE)
    {s : SolveState} (hInv : Inv p s) (hempty : s.queue = []) :
    IsGreatest {v | ∃ c, IsPassDist p c v} s.maxDist := by
  have hFle : ((gridFinset p).filter (fun x => s.dists x ≠ UNREACHABLE)).card ≤
      p.w * p.h := by
    calc ((gridFinset p).filter (fun x => s.dists x ≠ UNREACHABLE)).card
        ≤ (gridFinset p).card := Finset.card_filter_le _ _
      _ = p.w * p.h := gridFinset_card p
  have hreach : ∀ m c, ReachN p m c → s.dists c ≠ UNREACHABLE ∧ s.dists c ≤ m := by
    intro m c h
    induction h with
    | refl =>
      rw [hInv.start_d]
      exact ⟨by rw [UNREACHABLE_eq]; omega, Nat.zero_le _⟩
    | step hrf hstep ih =>
      obtain ⟨d, hd, hr⟩ := hstep
      rcases hInv.drelax _ ih.1 with hmem | hrel
      · rw [hempty] at hmem
        simp at hmem
      · have h1 := hrel d hd
        have h2 := hInv.card_d _ ih.1
        rw [← hr]
        exact ⟨by omega, by omega⟩
  have hpass_complete : ∀ m c, PassWithin p m c →
      s.passDists c ≠ UNREACHABLE ∧ s.passDists c ≤ m := by
    intro m c h
    rcases h with hstart | ⟨m', hm', q', hq', d, hd, hmem⟩
    · subst hstart
      rw [hInv.start_p]
      exact ⟨by rw [UNREACHABLE_eq]; omega, Nat.zero_le _⟩
    · obtain ⟨hfin, hle⟩ := hreach m' q' hq'
      rcases hInv.prelax q' hfin with hmem2 | hrel
      · rw [hempty] at hmem2
        simp at hmem2
      · have h1 := hrel d hd c hmem
        have h2 := hInv.card_d q' hfin
        exact ⟨by omega, by omega⟩
  constructor
  · obtain ⟨c0, hc0⟩ := hInv.mwit
    have hfin : s.passDists c0 ≠ UNREACHABLE := by
      rw [hc0]
      have := hInv.mfin
      omega
    refine ⟨c0, ?_, ?_⟩
    · have := hInv.psound c0 hfin
      rwa [hc0] at this
    · intro m hm
      have := (hpass_complete m c0 hm).2
      rwa [hc0] at this
  · rintro v ⟨c, hpw, hleast⟩
    have h2 := hpass_complete v c hpw
    have h3 := hInv.psound c h2.1
    have h4 := hleast _ h3
    have h5 := hInv.pcover c h2.1
    omega

/-- C1: for every puzzle within the supported bounds, the value returned by
`max_distance` is the greatest element of the set of pass-distances: the
maximum, over all cells passed through or rested on by some slide
trajectory, of that cell's minimal number of slide moves. -/
theorem max_distance_is_greatest_passdist (p : Puzzle)
    (hw : 0 < p.w) (hh : 0 < p.h) (hW : p.w ≤ MAXW - 1) (hH : p.h ≤ MAXH)
    (hs : inGrid p p.start = true) :
    IsGreatest {v | ∃ c, IsPassDist p c v} (max_distance p) := by
  have hW' : p.w ≤ 31 := by simpa [MAXW] using hW
  have hH' : p.h ≤ 32 := by simpa [MAXH] using hH
  have hwh : p.w * p.h < UNREACHABLE := by
    have : p.w * p.h ≤ 31 * 32 := Nat.mul_le_mul hW' hH'
    rw [UNREACHABLE_eq]
    omega
  obtain ⟨hInv, hempty⟩ := solveLoop_inv_empty hwh (solveFuel p) (initState p)
    (inv_init p hs) (bfsMeasure_init_lt p)
  exact final_correct hwh hInv hempty

/-- Witness for C1 at a concrete input. -/
theorem max_distance_is_greatest_passdist_witness :
    IsGreatest {v | ∃ c, IsPassDist (emptyPuzzle 2 2 (0, 0)) c v}
      (max_distance (emptyPuzzle 2 2 (0, 0))) :=
  max_distance_is_greatest_passdist (emptyPuzzle 2 2 (0, 0))
    (by decide) (by decide) (by decide) (by decide) (by decide)

/-! ### Immediate consequences: blocked starts (C10) -/

theorem rest_of_blocked {p : Puzzle} {d c : Cell}
    (h : pblocked p (cadd c d) = true) : rest p d c = c := by
  show slideRest (pblocked p) d c (p.w + p.h + 1 + 1) = c
  rw [slideRest_succ, if_pos h]

theorem path_of_blocked {p : Puzzle} {d c : Cell}
    (h : pblocked p (cadd c d) = true) : path p d c = [] := by
  show slideCells (pblocked p) d c (p.w + p.h + 1 + 1) = []
  rw [slideCells_succ, if_pos h]

theorem mem_path_of_free {p : Puzzle} {d c : Cell}
    (h : pblocked p (cadd c d) = false) : cadd c d ∈ path p d c := by
  show cadd c d ∈ slideCells (pblocked p) d c (p.w + p.h + 1 + 1)
  rw [slideCells_succ, if_neg (by rw [h]; simp)]
  exact List.mem_cons_self _ _

theorem cadd_ne_self {c d : Cell} (hd : d ∈ deltas) : cadd c d ≠ c := by
  simp only [deltas, List.mem_cons, List.not_mem_nil, or_false] at hd
  rcases hd with h | h | h | h <;>
    (subst h
     intro hcon
     have h1 := congrArg Prod.fst hcon
     have h2 := congrArg Prod.snd hcon
     simp only [cadd] at h1 h2
     omega)

theorem passWithin_mono {p : Puzzle} {m n : Nat} {c : Cell} (hmn : m ≤ n)
    (h : PassWithin p m c) : PassWithin p n c := by
  rcases h with h | ⟨m', hm', hrest⟩
  · exact Or.inl h
  · exact Or.inr ⟨m', by omega, hrest⟩

theorem isPassDist_one {p : Puzzle} {d : Cell} (hd : d ∈ deltas)
    (hfree : pblocked p (cadd p.start d) = false) :
    IsPassDist p (cadd p.start d) 1 := by
  constructor
  · exact Or.inr ⟨0, by omega, p.start, ReachFrom.refl, d, hd, mem_path_of_free hfree⟩
  · intro m hm
    rcases Nat.eq_zero_or_pos m with h0 | h1
    · subst h0
      rcases hm with h | ⟨m', hm', _⟩
      · exact absurd h (cadd_ne_self hd)
      · omega
    · exact h1

/-- C10: `max_distance` returns `0` exactly when every cell orthogonally
adjacent to the start is an obstacle or outside the grid, i.e. no slide
move from the start moves the token at all; otherwise the result is at
least `1`. -/
theorem max_distance_eq_zero_iff (p : Puzzle)
    (hw : 0 < p.w) (hh : 0 < p.h) (hW : p.w ≤ MAXW - 1) (hH : p.h ≤ MAXH)
    (hs : inGrid p p.start = true) :
    max_distance p = 0 ↔ ∀ d ∈ deltas, pblocked p (cadd p.start d) = true := by
  have hG := max_distance_is_greatest_passdist p hw hh hW hH hs
  constructor
  · intro h0
    intro d hd
    by_contra hfree
    have hfree' : pblocked p (cadd p.start d) = false := by simpa using hfree
    have h1 : 1 ∈ {v | ∃ c, IsPassDist p c v} :=
      ⟨cadd p.start d, isPassDist_one hd hfree'⟩
    have := hG.2 h1
    omega
  · intro hblk
    -- with all four directions blocked, no trajectory leaves the start
    have hreach : ∀ m c, ReachN p m c → c = p.start := by
      intro m c h
      induction h with
      | refl => rfl
      | step hrf hstep ih =>
        obtain ⟨d, hd, hr⟩ := hstep
        rw [← hr, ih, rest_of_blocked (hblk d hd)]
    have hset : {v | ∃ c, IsPassDist p c v} = {0} := by
      ext v
      simp only [Set.mem_setOf_eq, Set.mem_singleton_iff]
      constructor
      · rintro ⟨c, hpw, hleast⟩
        have hc : c = p.start := by
          rcases hpw with h | ⟨m', _, q', hq', d, hd, hmem⟩
          · exact h
          · rw [hreach m' q' hq', path_of_blocked (hblk d hd)] at hmem
            simp at hmem
        subst hc
        have := hleast 0 (Or.inl rfl)
        omega
      · rintro rfl
        refine ⟨p.start, Or.inl rfl, fun m _ => Nat.zero_le m⟩
    have h0 : IsGreatest {v | ∃ c, IsPassDist p c v} 0 := by
      rw [hset]
      exact ⟨rfl, fun v hv => le_of_eq (by simpa using hv)⟩
    exact hG.unique h0

/-- Witness for C10 at a concrete input: the degenerate 1×1 grid. -/
theorem max_distance_eq_zero_iff_witness :
    max_distance (emptyPuzzle 1 1 (0, 0)) = 0 :=
  (max_distance_eq_zero_iff (emptyPuzzle 1 1 (0, 0))
    (by decide) (by decide) (by decide) (by decide) (by decide)).mpr (by decide)

/-! ### Symmetry invariance of the solver (C4) -/

theorem bool_eq_of_iff {a b : Bool} (h : a = true ↔ b = true) : a = b := by
  cases a <;> cases b <;> simp_all

/-- The horizontally mirrored puzzle (column `c` goes to column `w-1-c`). -/
def mirrorH (p : Puzzle) : Puzzle :=
  ⟨p.w, p.h, ((p.w : Int) - 1 - p.start.1, p.start.2),
    fun c => p.obstacle ((p.w : Int) - 1 - c.1, c.2)⟩

/-- The vertically mirrored puzzle (row `r` goes to row `h-1-r`). -/
def mirrorV (p : Puzzle) : Puzzle :=
  ⟨p.w, p.h, (p.start.1, (p.h : Int) - 1 - p.start.2),
    fun c => p.obstacle (c.1, (p.h : Int) - 1 - c.2)⟩

/-- The transposed puzzle (rows and columns exchanged). -/
def transposeP (p : Puzzle) : Puzzle :=
  ⟨p.h, p.w, (p.start.2, p.start.1), fun c => p.obstacle (c.2, c.1)⟩

theorem sym_slideRest (blkA blkB : Cell → Bool) (σ σd : Cell → Cell) (d : Cell)
    (hblock : ∀ c, blkA c = blkB (σ c))
    (hcadd : ∀ c, σ (cadd c d) = cadd (σ c) (σd d)) :
    ∀ (fuel : Nat) (c : Cell),
      σ (slideRest blkA d c fuel) = slideRest blkB (σd d) (σ c) fuel := by
  intro fuel
  induction fuel with
  | zero => intro c; rfl
  | succ fuel ih =>
    intro c
    rw [slideRest_succ, slideRest_succ, ← hcadd, ← hblock]
    by_cases h : blkA (cadd c d) = true
    · rw [if_pos h, if_pos h]
    · rw [if_neg h, if_neg h, ih]

theorem sym_slideCells (blkA blkB : Cell → Bool) (σ σd : Cell → Cell) (d : Cell)
    (hblock : ∀ c, blkA c = blkB (σ c))
    (hcadd : ∀ c, σ (cadd c d) = cadd (σ c) (σd d)) :
    ∀ (fuel : Nat) (c : Cell),
      List.map σ (slideCells blkA d c fuel) = slideCells blkB (σd d) (σ c) fuel := by
  intro fuel
  induction fuel with
  | zero => intro c; rfl
  | succ fuel ih =>
    intro c
    rw [slideCells_succ, slideCells_succ, ← hcadd, ← hblock]
    by_cases h : blkA (cadd c d) = true
    · rw [if_pos h, if_pos h]
      rfl
    · rw [if_neg h, if_neg h, List.map_cons, ih]

theorem sym_rest (p p' : Puzzle) (σ σd : Cell → Cell) (d : Cell)
    (hblock : ∀ c, pblocked p' c = pblocked p (σ c))
    (hcadd : ∀ c, σ (cadd c d) = cadd (σ c) (σd d))
    (hfuel : slideFuel p' = slideFuel p) (c : Cell) :
    σ (rest p' d c) = rest p (σd d) (σ c) := by
  unfold rest
  rw [hfuel]
  exact sym_slideRest (pblocked p') (pblocked p) σ σd d hblock hcadd (slideFuel p) c

theorem sym_mem_path (p p' : Puzzle) (σ σd : Cell → Cell) (d : Cell)
    (hblock : ∀ c, pblocked p' c = pblocked p (σ c))
    (hcadd : ∀ c, σ (cadd c d) = cadd (σ c) (σd d))
    (hfuel : slideFuel p' = slideFuel p) {x c : Cell} (hx : x ∈ path p' d c) :
    σ x ∈ path p (σd d) (σ c) := by
  unfold path at hx ⊢
  rw [hfuel] at hx
  rw [← sym_slideCells (pblocked p') (pblocked p) σ σd d hblock hcadd (slideFuel p) c]
  exact List.mem_map_of_mem σ hx

theorem sym_passWithin (p p' : Puzzle) (σ σd : Cell → Cell)
    (hblock : ∀ c, pblocked p' c = pblocked p (σ c))
    (hcadd : ∀ d ∈ deltas, ∀ c, σ (cadd c d) = cadd (σ c) (σd d))
    (hdel : ∀ d ∈ deltas, σd d ∈ deltas)
    (hfuel : slideFuel p' = slideFuel p)
    (hstart : σ p'.start = p.start) :
    ∀ (n : Nat) (c : Cell), PassWithin p' n c → PassWithin p n (σ c) := by
  have hstep : ∀ a b, Step p' a b → Step p (σ a) (σ b) := by
    rintro a b ⟨d, hd, hr⟩
    exact ⟨σd d, hdel d hd,
      by rw [← sym_rest p p' σ σd d hblock (hcadd d hd) hfuel a, hr]⟩
  have hreach : ∀ (a : Cell) (n : Nat) (b : Cell),
      ReachFrom p' a n b → ReachFrom p (σ a) n (σ b) := by
    intro a n b h
    induction h with
    | refl => exact ReachFrom.refl
    | step hrf hs ih => exact ReachFrom.step ih (hstep _ _ hs)
  intro n c h
  rcases h with h | ⟨m, hm, q, hq, d, hd, hmem⟩
  · left
    rw [h, hstart]
  · right
    refine ⟨m, hm, σ q, ?_, σd d, hdel d hd, ?_⟩
    · have := hreach p'.start m q hq
      rwa [hstart] at this
    · exact sym_mem_path p p' σ σd d hblock (hcadd d hd) hfuel hmem

theorem sym_max_distance (p p' : Puzzle) (σ σd : Cell → Cell)
    (hinv : ∀ c, σ (σ c) = c)
    (hblock : ∀ c, pblocked p' c = pblocked p (σ c))
    (hcadd : ∀ d ∈ deltas, ∀ c, σ (cadd c d) = cadd (σ c) (σd d))
    (hdel : ∀ d ∈ deltas, σd d ∈ deltas)
    (hfuel : slideFuel p' = slideFuel p)
    (hstart : σ p'.start = p.start)
    (hG : IsGreatest {v | ∃ c, IsPassDist p c v} (max_distance p))
    (hG' : IsGreatest {v | ∃ c, IsPassDist p' c v} (max_distance p')) :
    max_distance p' = max_distance p := by
  have hblock' : ∀ c, pblocked p c = pblocked p' (σ c) := by
    intro c
    rw [hblock (σ c), hinv]
  have hstart' : σ p.start = p'.start := by
    rw [← hstart, hinv]
  have hfw := sym_passWithin p p' σ σd hblock hcadd hdel hfuel hstart
  have hbw := sym_passWithin p' p σ σd hblock' hcadd hdel hfuel.symm hstart'
  have hset : {v | ∃ c, IsPassDist p' c v} = {v | ∃ c, IsPassDist p c v} := by
    ext v
    simp only [Set.mem_setOf_eq]
    constructor
    · rintro ⟨c, hpw, hleast⟩
      refine ⟨σ c, hfw v c hpw, ?_⟩
      intro m hm
      have := hbw m (σ c) hm
      rw [hinv] at this
      exact hleast m this
    · rintro ⟨c, hpw, hleast⟩
      refine ⟨σ c, hbw v c hpw, ?_⟩
      intro m hm
      have := hfw m (σ c) hm
      rw [hinv] at this
      exact hleast m this
  refine hG'.unique ?_
  rw [hset]
  exact hG

/-- C4: `max_distance` is invariant under mirroring the grid horizontally and
mirroring it vertically, for every puzzle; and, when `w = h`, also under
transposing rows and columns — the grid symmetries used by the brute-force
start-cell pruning. -/
theorem max_distance_symmetries (p : Puzzle)
    (hw : 0 < p.w) (hh : 0 < p.h) (hW : p.w ≤ MAXW - 1) (hH : p.h ≤ MAXH)
    (hs : inGrid p p.start = true) :
    max_distance (mirrorH p) = max_distance p ∧
    max_distance (mirrorV p) = max_distance p ∧
    (p.w = p.h → max_distance (transposeP p) = max_distance p) := by
  have hsb := (inGrid_iff p p.start).mp hs
  have hW31 : p.w ≤ 31 := by simpa [MAXW] using hW
  have hH32 : p.h ≤ 32 := by simpa [MAXH] using hH
  have hG := max_distance_is_greatest_passdist p hw hh hW hH hs
  refine ⟨?_, ?_, ?_⟩
  · -- horizontal mirror
    have hs' : inGrid (mirrorH p) (mirrorH p).start = true := by
      rw [inGrid_iff]
      show 0 ≤ (p.w : Int) - 1 - p.start.1 ∧ (p.w : Int) - 1 - p.start.1 < (p.w : Int) ∧
        0 ≤ p.start.2 ∧ p.start.2 < (p.h : Int)
      refine ⟨by omega, by omega, hsb.2.2.1, hsb.2.2.2⟩
    have hG' := max_distance_is_greatest_passdist (mirrorH p) hw hh hW hH hs'
    refine sym_max_distance p (mirrorH p)
      (fun c => ((p.w : Int) - 1 - c.1, c.2)) (fun d => (-d.1, d.2))
      ?_ ?_ ?_ ?_ rfl ?_ hG hG'
    · intro c
      show ((p.w : Int) - 1 - ((p.w : Int) - 1 - c.1), c.2) = c
      have : (p.w : Int) - 1 - ((p.w : Int) - 1 - c.1) = c.1 := by ring
      rw [this]
    · intro c
      unfold pblocked
      have hobs : (mirrorH p).obstacle c =
          p.obstacle ((p.w : Int) - 1 - c.1, c.2) := rfl
      rw [hobs]
      have hig : inGrid (mirrorH p) c = inGrid p ((p.w : Int) - 1 - c.1, c.2) := by
        apply bool_eq_of_iff
        rw [inGrid_iff, inGrid_iff]
        show (0 ≤ c.1 ∧ c.1 < (p.w : Int) ∧ 0 ≤ c.2 ∧ c.2 < (p.h : Int)) ↔ _
        constructor
        · rintro ⟨h1, h2, h3, h4⟩
          exact ⟨by omega, by omega, h3, h4⟩
        · rintro ⟨h1, h2, h3, h4⟩
          exact ⟨by omega, by omega, h3, h4⟩
      rw [hig]
    · intro d hd c
      show ((p.w : Int) - 1 - (c.1 + d.1), c.2 + d.2) = _
      show _ = ((p.w : Int) - 1 - c.1 + -d.1, c.2 + d.2)
      have : (p.w : Int) - 1 - (c.1 + d.1) = (p.w : Int) - 1 - c.1 + -d.1 := by ring
      rw [this]
    · decide
    · show ((p.w : Int) - 1 - ((p.w : Int) - 1 - p.start.1), p.start.2) = p.start
      have : (p.w : Int) - 1 - ((p.w : Int) - 1 - p.start.1) = p.start.1 := by ring
      rw [this]
  · -- vertical mirror
    have hs' : inGrid (mirrorV p) (mirrorV p).start = true := by
      rw [inGrid_iff]
      show 0 ≤ p.start.1 ∧ p.start.1 < (p.w : Int) ∧
        0 ≤ (p.h : Int) - 1 - p.start.2 ∧ (p.h : Int) - 1 - p.start.2 < (p.h : Int)
      refine ⟨hsb.1, hsb.2.1, by omega, by omega⟩
    have hG' := max_distance_is_greatest_passdist (mirrorV p) hw hh hW hH hs'
    refine sym_max_distance p (mirrorV p)
      (fun c => (c.1, (p.h : Int) - 1 - c.2)) (fun d => (d.1, -d.2))
      ?_ ?_ ?_ ?_ rfl ?_ hG hG'
    · intro c
      show (c.1, (p.h : Int) - 1 - ((p.h : Int) - 1 - c.2)) = c
      have : (p.h : Int) - 1 - ((p.h : Int) - 1 - c.2) = c.2 := by ring
      rw [this]
    · intro c
      unfold pblocked
      have hobs : (mirrorV p).obstacle c =
          p.obstacle (c.1, (p.h : Int) - 1 - c.2) := rfl
      rw [hobs]
      have hig : inGrid (mirrorV p) c = inGrid p (c.1, (p.h : Int) - 1 - c.2) := by
        apply bool_eq_of_iff
        rw [inGrid_iff, inGrid_iff]
        show (0 ≤ c.1 ∧ c.1 < (p.w : Int) ∧ 0 ≤ c.2 ∧ c.2 < (p.h : Int)) ↔ _
        constructor
        · rintro ⟨h1, h2, h3, h4⟩
          exact ⟨h1, h2, by omega, by omega⟩
        · rintro ⟨h1, h2, h3, h4⟩
          exact ⟨h1, h2, by omega, by omega⟩
      rw [hig]
    · intro d hd c
      show (c.1 + d.1, (p.h : Int) - 1 - (c.2 + d.2)) = _
      show _ = (c.1 + d.1, (p.h : Int) - 1 - c.2 + -d.2)
      have : (p.h : Int) - 1 - (c.2 + d.2) = (p.h : Int) - 1 - c.2 + -d.2 := by ring
      rw [this]
    · decide
    · show (p.start.1, (p.h : Int) - 1 - ((p.h : Int) - 1 - p.start.2)) = p.start
      have : (p.h : Int) - 1 - ((p.h : Int) - 1 - p.start.2) = p.start.2 := by ring
      rw [this]
  · -- transposition (square grid)
    intro hsq
    have hs' : inGrid (transposeP p) (transposeP p).start = true := by
      rw [inGrid_iff]
      show 0 ≤ p.start.2 ∧ p.start.2 < (p.h : Int) ∧
        0 ≤ p.start.1 ∧ p.start.1 < (p.w : Int)
      exact ⟨hsb.2.2.1, hsb.2.2.2, hsb.1, hsb.2.1⟩
    have hG' := max_distance_is_greatest_passdist (transposeP p)
      (by show 0 < p.h; omega) (by show 0 < p.w; omega)
      (by show p.h ≤ MAXW - 1; simp only [MAXW]; omega)
      (by show p.w ≤ MAXH; simp only [MAXH]; omega) hs'
    refine sym_max_distance p (transposeP p)
      (fun c => (c.2, c.1)) (fun d => (d.2, d.1))
      ?_ ?_ ?_ ?_ ?_ rfl hG hG'
    · intro c
      rfl
    · intro c
      unfold pblocked
      have hobs : (transposeP p).obstacle c = p.obstacle (c.2, c.1) := rfl
      rw [hobs]
      have hig : inGrid (transposeP p) c = inGrid p (c.2, c.1) := by
        apply bool_eq_of_iff
        rw [inGrid_iff, inGrid_iff]
        show (0 ≤ c.1 ∧ c.1 < (p.h : Int) ∧ 0 ≤ c.2 ∧ c.2 < (p.w : Int)) ↔ _
        constructor
        · rintro ⟨h1, h2, h3, h4⟩
          exact ⟨h3, h4, h1, h2⟩
        · rintro ⟨h1, h2, h3, h4⟩
          exact ⟨h3, h4, h1, h2⟩
      rw [hig]
    · intro d hd c
      rfl
    · decide
    · show slideFuel (transposeP p) = slideFuel p
      unfold slideFuel
      show p.h + p.w + 2 = p.w + p.h + 2
      omega

/-- Witness for C4: mirror invariance at a concrete non-square 3×2 input, and
transpose invariance at a concrete square 3×3 input. -/
theorem max_distance_symmetries_witness :
    (max_distance (mirrorH (listPuzzle 3 2 (0, 1) [(1, 0)])) =
        max_distance (listPuzzle 3 2 (0, 1) [(1, 0)]) ∧
      max_distance (mirrorV (listPuzzle 3 2 (0, 1) [(1, 0)])) =
        max_distance (listPuzzle 3 2 (0, 1) [(1, 0)])) ∧
    max_distance (transposeP (listPuzzle 3 3 (0, 1) [(1, 0)])) =
      max_distance (listPuzzle 3 3 (0, 1) [(1, 0)]) := by
  have h1 := max_distance_symmetries (listPuzzle 3 2 (0, 1) [(1, 0)])
    (by decide) (by decide) (by decide) (by decide) (by decide)
  have h2 := max_distance_symmetries (listPuzzle 3 3 (0, 1) [(1, 0)])
    (by decide) (by decide) (by decide) (by decide) (by decide)
  exact ⟨⟨h1.1, h1.2.1⟩, h2.2.2 (by decide)⟩

/-! ### Obstacle-free grids (C5) -/

theorem inGrid_pair (p : Puzzle) (x y : Int) :
    inGrid p (x, y) = true ↔ 0 ≤ x ∧ x < (p.w : Int) ∧ 0 ≤ y ∧ y < (p.h : Int) :=
  inGrid_iff p (x, y)

theorem pblocked_empty {p : Puzzle} (hobs : ∀ c, p.obstacle c = false) (c : Cell) :
    pblocked p c = !inGrid p c := by
  unfold pblocked
  rw [hobs]
  exact Bool.or_false _

theorem pblocked_empty_iff {p : Puzzle} (hobs : ∀ c, p.obstacle c = false) (x y : Int) :
    pblocked p (x, y) = false ↔
      0 ≤ x ∧ x < (p.w : Int) ∧ 0 ≤ y ∧ y < (p.h : Int) := by
  have hb : (!inGrid p (x, y)) = false ↔ inGrid p (x, y) = true := by
    cases inGrid p (x, y) <;> simp
  rw [pblocked_empty hobs, hb, inGrid_pair]

theorem cmul_right (c : Cell) (j : Nat) : cmul c (1, 0) j = (c.1 + j, c.2) := by
  simp [cmul]

theorem cmul_left (c : Cell) (j : Nat) : cmul c (-1, 0) j = (c.1 - j, c.2) := by
  simp [cmul]
  ring

theorem cmul_up (c : Cell) (j : Nat) : cmul c (0, -1) j = (c.1, c.2 - j) := by
  simp [cmul]
  ring

theorem cmul_down (c : Cell) (j : Nat) : cmul c (0, 1) j = (c.1, c.2 + j) := by
  simp [cmul]

theorem rest_empty_right {p : Puzzle} (hobs : ∀ c, p.obstacle c = false) {c : Cell}
    (hc : inGrid p c = true) : rest p (1, 0) c = ((p.w : Int) - 1, c.2) := by
  obtain ⟨K, hK, hfree, hblk⟩ :=
    rest_spec (p := p) (d := ((1 : Int), (0 : Int))) (by decide) hc
  have hic := (inGrid_iff p c).mp hc
  have hub : c.1 + (K : Int) ≤ (p.w : Int) - 1 := by
    rcases Nat.eq_zero_or_pos K with h0 | h1
    · subst h0
      push_cast
      omega
    · have hf := hfree K h1 le_rfl
      rw [cmul_right] at hf
      have := (pblocked_empty_iff hobs _ _).mp hf
      omega
  have hlb : ¬(c.1 + (K : Int) + 1 ≤ (p.w : Int) - 1) := by
    intro hcon
    rw [cmul_right] at hblk
    have hfalse : pblocked p (c.1 + ((K : Int) + 1), c.2) = false := by
      rw [pblocked_empty_iff hobs]
      refine ⟨by omega, by omega, hic.2.2.1, hic.2.2.2⟩
    rw [show ((K : Int) + 1) = ((K + 1 : Nat) : Int) by push_cast; ring] at hfalse
    rw [hfalse] at hblk
    exact absurd hblk (by simp)
  rw [hK, cmul_right]
  have heq : c.1 + (K : Int) = (p.w : Int) - 1 := by omega
  rw [heq]

theorem rest_empty_left {p : Puzzle} (hobs : ∀ c, p.obstacle c = false) {c : Cell}
    (hc : inGrid p c = true) : rest p (-1, 0) c = (0, c.2) := by
  obtain ⟨K, hK, hfree, hblk⟩ :=
    rest_spec (p := p) (d := ((-1 : Int), (0 : Int))) (by decide) hc
  have hic := (inGrid_iff p c).mp hc
  have hub : 0 ≤ c.1 - (K : Int) := by
    rcases Nat.eq_zero_or_pos K with h0 | h1
    · subst h0
      push_cast
      omega
    · have hf := hfree K h1 le_rfl
      rw [cmul_left] at hf
      have := (pblocked_empty_iff hobs _ _).mp hf
      omega
  have hlb : ¬(0 ≤ c.1 - (K : Int) - 1) := by
    intro hcon
    rw [cmul_left] at hblk
    have hfalse : pblocked p (c.1 - ((K : Int) + 1), c.2) = false := by
      rw [pblocked_empty_iff hobs]
      refine ⟨by omega, by omega, hic.2.2.1, hic.2.2.2⟩
    rw [show ((K : Int) + 1) = ((K + 1 : Nat) : Int) by push_cast; ring] at hfalse
    rw [hfalse] at hblk
    exact absurd hblk (by simp)
  rw [hK, cmul_left]
  have heq : c.1 - (K : Int) = 0 := by omega
  rw [heq]

theorem rest_empty_up {p : Puzzle} (hobs : ∀ c, p.obstacle c = false) {c : Cell}
    (hc : inGrid p c = true) : rest p (0, -1) c = (c.1, 0) := by
  obtain ⟨K, hK, hfree, hblk⟩ :=
    rest_spec (p := p) (d := ((0 : Int), (-1 : Int))) (by decide) hc
  have hic := (inGrid_iff p c).mp hc
  have hub : 0 ≤ c.2 - (K : Int) := by
    rcases Nat.eq_zero_or_pos K with h0 | h1
    · subst h0
      push_cast
      omega
    · have hf := hfree K h1 le_rfl
      rw [cmul_up] at hf
      have := (pblocked_empty_iff hobs _ _).mp hf
      omega
  have hlb : ¬(0 ≤ c.2 - (K : Int) - 1) := by
    intro hcon
    rw [cmul_up] at hblk
    have hfalse : pblocked p (c.1, c.2 - ((K : Int) + 1)) = false := by
      rw [pblocked_empty_iff hobs]
      refine ⟨hic.1, hic.2.1, by omega, by omega⟩
    rw [show ((K : Int) + 1) = ((K + 1 : Nat) : Int) by push_cast; ring] at hfalse
    rw [hfalse] at hblk
    exact absurd hblk (by simp)
  rw [hK, cmul_up]
  have heq : c.2 - (K : Int) = 0 := by omega
  rw [heq]

theorem rest_empty_down {p : Puzzle} (hobs : ∀ c, p.obstacle c = false) {c : Cell}
    (hc : inGrid p c = true) : rest p (0, 1) c = (c.1, (p.h : Int) - 1) := by
  obtain ⟨K, hK, hfree, hblk⟩ :=
    rest_spec (p := p) (d := ((0 : Int), (1 : Int))) (by decide) hc
  have hic := (inGrid_iff p c).mp hc
  have hub : c.2 + (K : Int) ≤ (p.h : Int) - 1 := by
    rcases Nat.eq_zero_or_pos K with h0 | h1
    · subst h0
      push_cast
      omega
    · have hf := hfree K h1 le_rfl
      rw [cmul_down] at hf
      have := (pblocked_empty_iff hobs _ _).mp hf
      omega
  have hlb : ¬(c.2 + (K : Int) + 1 ≤ (p.h : Int) - 1) := by
    intro hcon
    rw [cmul_down] at hblk
    have hfalse : pblocked p (c.1, c.2 + ((K : Int) + 1)) = false := by
      rw [pblocked_empty_iff hobs]
      refine ⟨hic.1, hic.2.1, by omega, by omega⟩
    rw [show ((K : Int) + 1) = ((K + 1 : Nat) : Int) by push_cast; ring] at hfalse
    rw [hfalse] at hblk
    exact absurd hblk (by simp)
  rw [hK, cmul_down]
  have heq : c.2 + (K : Int) = (p.h : Int) - 1 := by omega
  rw [heq]

theorem mem_path_empty_right {p : Puzzle} (hobs : ∀ c, p.obstacle c = false) {c : Cell}
    (hc : inGrid p c = true) (x : Cell) :
    x ∈ path p (1, 0) c ↔ x.2 = c.2 ∧ c.1 < x.1 ∧ x.1 < (p.w : Int) := by
  have hic := (inGrid_iff p c).mp hc
  rw [mem_path_iff (by decide) hc]
  constructor
  · rintro ⟨k, hk, hx, hfree⟩
    rw [cmul_right] at hx
    have hf := hfree k hk le_rfl
    rw [cmul_right] at hf
    have := (pblocked_empty_iff hobs _ _).mp hf
    subst hx
    refine ⟨rfl, by push_cast; omega, by omega⟩
  · rintro ⟨h2, h3, h4⟩
    refine ⟨(x.1 - c.1).toNat, by omega, ?_, ?_⟩
    · rw [cmul_right]
      have : ((x.1 - c.1).toNat : Int) = x.1 - c.1 := Int.toNat_of_nonneg (by omega)
      rw [this]
      have he1 : c.1 + (x.1 - c.1) = x.1 := by ring
      rw [he1, ← h2]
    · intro j hj hj'
      rw [cmul_right, pblocked_empty_iff hobs]
      have : (j : Int) ≤ x.1 - c.1 := by
        have := Int.toNat_of_nonneg (show (0 : Int) ≤ x.1 - c.1 by omega)
        omega
      refine ⟨by omega, by omega, hic.2.2.1, hic.2.2.2⟩

theorem mem_path_empty_left {p : Puzzle} (hobs : ∀ c, p.obstacle c = false) {c : Cell}
    (hc : inGrid p c = true) (x : Cell) :
    x ∈ path p (-1, 0) c ↔ x.2 = c.2 ∧ 0 ≤ x.1 ∧ x.1 < c.1 := by
  have hic := (inGrid_iff p c).mp hc
  rw [mem_path_iff (by decide) hc]
  constructor
  · rintro ⟨k, hk, hx, hfree⟩
    rw [cmul_left] at hx
    have hf := hfree k hk le_rfl
    rw [cmul_left] at hf
    have := (pblocked_empty_iff hobs _ _).mp hf
    subst hx
    refine ⟨rfl, by omega, by push_cast; omega⟩
  · rintro ⟨h2, h3, h4⟩
    refine ⟨(c.1 - x.1).toNat, by omega, ?_, ?_⟩
    · rw [cmul_left]
      have : ((c.1 - x.1).toNat : Int) = c.1 - x.1 := Int.toNat_of_nonneg (by omega)
      rw [this]
      have he1 : c.1 - (c.1 - x.1) = x.1 := by ring
      rw [he1, ← h2]
    · intro j hj hj'
      rw [cmul_left, pblocked_empty_iff hobs]
      have : (j : Int) ≤ c.1 - x.1 := by
        have := Int.toNat_of_nonneg (show (0 : Int) ≤ c.1 - x.1 by omega)
        omega
      refine ⟨by omega, by omega, hic.2.2.1, hic.2.2.2⟩

theorem mem_path_empty_up {p : Puzzle} (hobs : ∀ c, p.obstacle c = false) {c : Cell}
    (hc : inGrid p c = true) (x : Cell) :
    x ∈ path p (0, -1) c ↔ x.1 = c.1 ∧ 0 ≤ x.2 ∧ x.2 < c.2 := by
  have hic := (inGrid_iff p c).mp hc
  rw [mem_path_iff (by decide) hc]
  constructor
  · rintro ⟨k, hk, hx, hfree⟩
    rw [cmul_up] at hx
    have hf := hfree k hk le_rfl
    rw [cmul_up] at hf
    have := (pblocked_empty_iff hobs _ _).mp hf
    subst hx
    refine ⟨rfl, by omega, by push_cast; omega⟩
  · rintro ⟨h2, h3, h4⟩
    refine ⟨(c.2 - x.2).toNat, by omega, ?_, ?_⟩
    · rw [cmul_up]
      have : ((c.2 - x.2).toNat : Int) = c.2 - x.2 := Int.toNat_of_nonneg (by omega)
      rw [this]
      have he1 : c.2 - (c.2 - x.2) = x.2 := by ring
      rw [he1, ← h2]
    · intro j hj hj'
      rw [cmul_up, pblocked_empty_iff hobs]
      have : (j : Int) ≤ c.2 - x.2 := by
        have := Int.toNat_of_nonneg (show (0 : Int) ≤ c.2 - x.2 by omega)
        omega
      refine ⟨hic.1, hic.2.1, by omega, by omega⟩

theorem mem_path_empty_down {p : Puzzle} (hobs : ∀ c, p.obstacle c = false) {c : Cell}
    (hc : inGrid p c = true) (x : Cell) :
    x ∈ path p (0, 1) c ↔ x.1 = c.1 ∧ c.2 < x.2 ∧ x.2 < (p.h : Int) := by
  have hic := (inGrid_iff p c).mp hc
  rw [mem_path_iff (by decide) hc]
  constructor
  · rintro ⟨k, hk, hx, hfree⟩
    rw [cmul_down] at hx
    have hf := hfree k hk le_rfl
    rw [cmul_down] at hf
    have := (pblocked_empty_iff hobs _ _).mp hf
    subst hx
    refine ⟨rfl, by push_cast; omega, by omega⟩
  · rintro ⟨h2, h3, h4⟩
    refine ⟨(x.2 - c.2).toNat, by omega, ?_, ?_⟩
    · rw [cmul_down]
      have : ((x.2 - c.2).toNat : Int) = x.2 - c.2 := Int.toNat_of_nonneg (by omega)
      rw [this]
      have he1 : c.2 + (x.2 - c.2) = x.2 := by ring
      rw [he1, ← h2]
    · intro j hj hj'
      rw [cmul_down, pblocked_empty_iff hobs]
      have : (j : Int) ≤ x.2 - c.2 := by
        have := Int.toNat_of_nonneg (show (0 : Int) ≤ x.2 - c.2 by omega)
        omega
      refine ⟨hic.1, hic.2.1, by omega, by omega⟩

/-- On an obstacle-free grid, resting cells lie on the border lines or on
the start cross. -/
theorem reach_empty_char {p : Puzzle} (hobs : ∀ c, p.obstacle c = false)
    (hs : inGrid p p.start = true) :
    ∀ (m : Nat) (c : Cell), ReachN p m c → inGrid p c = true ∧
      (c.1 = 0 ∨ c.1 = (p.w : Int) - 1 ∨ c.1 = p.start.1) ∧
      (c.2 = 0 ∨ c.2 = (p.h : Int) - 1 ∨ c.2 = p.start.2) := by
  intro m c h
  induction h with
  | refl => exact ⟨hs, Or.inr (Or.inr rfl), Or.inr (Or.inr rfl)⟩
  | step hrf hstep ih =>
    obtain ⟨hg, hx, hy⟩ := ih
    obtain ⟨d, hd, hr⟩ := hstep
    have hb := (inGrid_iff p _).mp hg
    simp only [deltas, List.mem_cons, List.not_mem_nil, or_false] at hd
    rcases hd with h | h | h | h <;> subst h <;> rw [← hr]
    · rw [rest_empty_left hobs hg]
      refine ⟨by rw [inGrid_pair]; exact ⟨le_rfl, by omega, hb.2.2.1, hb.2.2.2⟩,
        Or.inl rfl, hy⟩
    · rw [rest_empty_right hobs hg]
      refine ⟨by rw [inGrid_pair]; exact ⟨by omega, by omega, hb.2.2.1, hb.2.2.2⟩,
        Or.inr (Or.inl rfl), hy⟩
    · rw [rest_empty_up hobs hg]
      refine ⟨by rw [inGrid_pair]; exact ⟨hb.1, hb.2.1, le_rfl, by omega⟩,
        hx, Or.inl rfl⟩
    · rw [rest_empty_down hobs hg]
      refine ⟨by rw [inGrid_pair]; exact ⟨hb.1, hb.2.1, by omega, by omega⟩,
        hx, Or.inr (Or.inl rfl)⟩

/-- Cells on the start row or start column are passed within one move. -/
theorem passWithin_one_cross {p : Puzzle} (hobs : ∀ c, p.obstacle c = false)
    (hs : inGrid p p.start = true) {c : Cell} (hcg : inGrid p c = true)
    (hc : c.1 = p.start.1 ∨ c.2 = p.start.2) : PassWithin p 1 c := by
  by_cases heq : c = p.start
  · exact Or.inl heq
  · have hcb := (inGrid_iff p c).mp hcg
    rcases hc with hx | hy
    · have hne : c.2 ≠ p.start.2 := fun h => heq (Prod.ext hx h)
      rcases lt_or_gt_of_ne hne with hlt | hgt
      · refine Or.inr ⟨0, by omega, p.start, ReachFrom.refl, (0, -1), by decide, ?_⟩
        rw [mem_path_empty_up hobs hs]
        exact ⟨hx, hcb.2.2.1, hlt⟩
      · refine Or.inr ⟨0, by omega, p.start, ReachFrom.refl, (0, 1), by decide, ?_⟩
        rw [mem_path_empty_down hobs hs]
        exact ⟨hx, hgt, hcb.2.2.2⟩
    · have hne : c.1 ≠ p.start.1 := fun h => heq (Prod.ext h hy)
      rcases lt_or_gt_of_ne hne with hlt | hgt
      · refine Or.inr ⟨0, by omega, p.start, ReachFrom.refl, (-1, 0), by decide, ?_⟩
        rw [mem_path_empty_left hobs hs]
        exact ⟨hy, hcb.1, hlt⟩
      · refine Or.inr ⟨0, by omega, p.start, ReachFrom.refl, (1, 0), by decide, ?_⟩
        rw [mem_path_empty_right hobs hs]
        exact ⟨hy, hgt, hcb.2.1⟩

/-- Cells on the top or bottom border row are passed within two moves. -/
theorem passWithin_two_row {p : Puzzle} (hobs : ∀ c, p.obstacle c = false)
    (hs : inGrid p p.start = true) {c : Cell} (hcg : inGrid p c = true)
    (hy : c.2 = 0 ∨ c.2 = (p.h : Int) - 1) : PassWithin p 2 c := by
  have hsb := (inGrid_iff p p.start).mp hs
  have hcb := (inGrid_iff p c).mp hcg
  by_cases hsy : p.start.2 = c.2
  · exact passWithin_mono (by omega) (passWithin_one_cross hobs hs hcg (Or.inr hsy.symm))
  · have hq'g : inGrid p (p.start.1, c.2) = true := by
      rw [inGrid_pair]
      exact ⟨hsb.1, hsb.2.1, hcb.2.2.1, hcb.2.2.2⟩
    have hreach1 : ReachN p 1 (p.start.1, c.2) := by
      rcases hy with h0 | h1
      · rw [h0]
        exact ReachFrom.step ReachFrom.refl ⟨(0, -1), by decide, rest_empty_up hobs hs⟩
      · rw [h1]
        exact ReachFrom.step ReachFrom.refl ⟨(0, 1), by decide, rest_empty_down hobs hs⟩
    by_cases hcx : c.1 = p.start.1
    · have hceq : c = (p.start.1, c.2) := Prod.ext hcx rfl
      have hp1 : PassWithin p 1 (p.start.1, c.2) := by
        refine Or.inr ⟨0, by omega, p.start, ReachFrom.refl, ?_⟩
        rcases hy with h0 | h1
        · refine ⟨(0, -1), by decide, ?_⟩
          rw [mem_path_empty_up hobs hs]
          exact ⟨rfl, by omega, by omega⟩
        · refine ⟨(0, 1), by decide, ?_⟩
          rw [mem_path_empty_down hobs hs]
          exact ⟨rfl, by omega, by omega⟩
      rw [hceq]
      exact passWithin_mono (by omega) hp1
    · rcases lt_or_gt_of_ne hcx with hlt | hgt
      · refine Or.inr ⟨1, by omega, (p.start.1, c.2), hreach1, (-1, 0), by decide, ?_⟩
        rw [mem_path_empty_left hobs hq'g]
        exact ⟨rfl, hcb.1, hlt⟩
      · refine Or.inr ⟨1, by omega, (p.start.1, c.2), hreach1, (1, 0), by decide, ?_⟩
        rw [mem_path_empty_right hobs hq'g]
        exact ⟨rfl, hgt, hcb.2.1⟩

/-- Cells on the left or right border column are passed within two moves. -/
theorem passWithin_two_col {p : Puzzle} (hobs : ∀ c, p.obstacle c = false)
    (hs : inGrid p p.start = true) {c : Cell} (hcg : inGrid p c = true)
    (hx : c.1 = 0 ∨ c.1 = (p.w : Int) - 1) : PassWithin p 2 c := by
  have hsb := (inGrid_iff p p.start).mp hs
  have hcb := (inGrid_iff p c).mp hcg
  by_cases hsx : p.start.1 = c.1
  · exact passWithin_mono (by omega) (passWithin_one_cross hobs hs hcg (Or.inl hsx.symm))
  · have hq'g : inGrid p (c.1, p.start.2) = true := by
      rw [inGrid_pair]
      exact ⟨hcb.1, hcb.2.1, hsb.2.2.1, hsb.2.2.2⟩
    have hreach1 : ReachN p 1 (c.1, p.start.2) := by
      rcases hx with h0 | h1
      · rw [h0]
        exact ReachFrom.step ReachFrom.refl ⟨(-1, 0), by decide, rest_empty_left hobs hs⟩
      · rw [h1]
        exact ReachFrom.step ReachFrom.refl ⟨(1, 0), by decide, rest_empty_right hobs hs⟩
    by_cases hcy : c.2 = p.start.2
    · have hceq : c = (c.1, p.start.2) := Prod.ext rfl hcy
      have hp1 : PassWithin p 1 (c.1, p.start.2) := by
        refine Or.inr ⟨0, by omega, p.start, ReachFrom.refl, ?_⟩
        rcases hx with h0 | h1
        · refine ⟨(-1, 0), by decide, ?_⟩
          rw [mem_path_empty_left hobs hs]
          exact ⟨rfl, by omega, by omega⟩
        · refine ⟨(1, 0), by decide, ?_⟩
          rw [mem_path_empty_right hobs hs]
          exact ⟨rfl, by omega, by omega⟩
      rw [hceq]
      exact passWithin_mono (by omega) hp1
    · rcases lt_or_gt_of_ne hcy with hlt | hgt
      · refine Or.inr ⟨1, by omega, (c.1, p.start.2), hreach1, (0, -1), by decide, ?_⟩
        rw [mem_path_empty_up hobs hq'g]
        exact ⟨rfl, hcb.2.2.1, hlt⟩
      · refine Or.inr ⟨1, by omega, (c.1, p.start.2), hreach1, (0, 1), by decide, ?_⟩
        rw [mem_path_empty_down hobs hq'g]
        exact ⟨rfl, hgt, hcb.2.2.2⟩

/-- On an obstacle-free grid, everything passable is passable within two
moves. -/
theorem passWithin_two_all {p : Puzzle} (hobs : ∀ c, p.obstacle c = false)
    (hs : inGrid p p.start = true) :
    ∀ (n : Nat) (c : Cell), PassWithin p n c → PassWithin p 2 c := by
  intro n c hpw
  rcases hpw with h | ⟨m, hm, q, hq, d, hd, hmem⟩
  · exact Or.inl h
  · obtain ⟨hqg, hqx, hqy⟩ := reach_empty_char hobs hs m q hq
    have hcg : inGrid p c = true := path_inGrid hmem
    simp only [deltas, List.mem_cons, List.not_mem_nil, or_false] at hd
    rcases hd with h | h | h | h <;> subst h
    · rw [mem_path_empty_left hobs hqg] at hmem
      rcases hqy with h0 | h1 | hsy
      · exact passWithin_two_row hobs hs hcg (Or.inl (hmem.1.trans h0))
      · exact passWithin_two_row hobs hs hcg (Or.inr (hmem.1.trans h1))
      · exact passWithin_mono (by omega)
          (passWithin_one_cross hobs hs hcg (Or.inr (hmem.1.trans hsy)))
    · rw [mem_path_empty_right hobs hqg] at hmem
      rcases hqy with h0 | h1 | hsy
      · exact passWithin_two_row hobs hs hcg (Or.inl (hmem.1.trans h0))
      · exact passWithin_two_row hobs hs hcg (Or.inr (hmem.1.trans h1))
      · exact passWithin_mono (by omega)
          (passWithin_one_cross hobs hs hcg (Or.inr (hmem.1.trans hsy)))
    · rw [mem_path_empty_up hobs hqg] at hmem
      rcases hqx with h0 | h1 | hsx
      · exact passWithin_two_col hobs hs hcg (Or.inl (hmem.1.trans h0))
      · exact passWithin_two_col hobs hs hcg (Or.inr (hmem.1.trans h1))
      · exact passWithin_mono (by omega)
          (passWithin_one_cross hobs hs hcg (Or.inl (hmem.1.trans hsx)))
    · rw [mem_path_empty_down hobs hqg] at hmem
      rcases hqx with h0 | h1 | hsx
      · exact passWithin_two_col hobs hs hcg (Or.inl (hmem.1.trans h0))
      · exact passWithin_two_col hobs hs hcg (Or.inr (hmem.1.trans h1))
      · exact passWithin_mono (by omega)
          (passWithin_one_cross hobs hs hcg (Or.inl (hmem.1.trans hsx)))

theorem inGrid_false_iff (p : Puzzle) (x y : Int) :
    inGrid p (x, y) = false ↔
      ¬(0 ≤ x ∧ x < (p.w : Int) ∧ 0 ≤ y ∧ y < (p.h : Int)) := by
  rw [← inGrid_pair]
  cases inGrid p (x, y) <;> simp

theorem isPassDist_two_aux {p : Puzzle} (hobs : ∀ c, p.obstacle c = false)
    (hs : inGrid p p.start = true) {xv yv : Int}
    (hxvb : 0 ≤ xv ∧ xv < (p.w : Int)) (hyvb : 0 ≤ yv ∧ yv < (p.h : Int))
    (hxv : xv ≠ p.start.1) (hyv : yv ≠ p.start.2)
    (hreach : ReachN p 1 (xv, p.start.2)) :
    IsPassDist p (xv, yv) 2 := by
  have hsb := (inGrid_iff p p.start).mp hs
  have hq'g : inGrid p (xv, p.start.2) = true := by
    rw [inGrid_pair]
    exact ⟨hxvb.1, hxvb.2, hsb.2.2.1, hsb.2.2.2⟩
  constructor
  · refine Or.inr ⟨1, by omega, (xv, p.start.2), hreach, ?_⟩
    rcases lt_or_gt_of_ne hyv with hlt | hgt
    · refine ⟨(0, -1), by decide, ?_⟩
      rw [mem_path_empty_up hobs hq'g]
      exact ⟨rfl, hyvb.1, hlt⟩
    · refine ⟨(0, 1), by decide, ?_⟩
      rw [mem_path_empty_down hobs hq'g]
      exact ⟨rfl, hgt, hyvb.2⟩
  · intro m hm
    by_contra hcon
    push_neg at hcon
    have hm1 : PassWithin p 1 (xv, yv) := passWithin_mono (by omega) hm
    rcases hm1 with h | ⟨m', hm', q', hq', d, hd, hmem⟩
    · exact hxv (congrArg Prod.fst h)
    · have hm'0 : m' = 0 := by omega
      subst hm'0
      cases hq'
      simp only [deltas, List.mem_cons, List.not_mem_nil, or_false] at hd
      rcases hd with h | h | h | h <;> subst h
      · rw [mem_path_empty_left hobs hs] at hmem
        exact hyv hmem.1
      · rw [mem_path_empty_right hobs hs] at hmem
        exact hyv hmem.1
      · rw [mem_path_empty_up hobs hs] at hmem
        exact hxv hmem.1
      · rw [mem_path_empty_down hobs hs] at hmem
        exact hxv hmem.1

/-- C5 (amended): on an obstacle-free grid (edges acting as walls) the
result of `max_distance` is `0` for the 1×1 grid, `1` when exactly one of
the dimensions is `1`, and `2` whenever both dimensions exceed `1`. -/
theorem max_distance_empty (p : Puzzle) (hobs : ∀ c, p.obstacle c = false)
    (hw : 0 < p.w) (hh : 0 < p.h) (hW : p.w ≤ MAXW - 1) (hH : p.h ≤ MAXH)
    (hs : inGrid p p.start = true) :
    max_distance p =
      if 1 < p.w ∧ 1 < p.h then 2 else if p.w = 1 ∧ p.h = 1 then 0 else 1 := by
  have hsb := (inGrid_iff p p.start).mp hs
  have hG := max_distance_is_greatest_passdist p hw hh hW hH hs
  by_cases hbig : 1 < p.w ∧ 1 < p.h
  · rw [if_pos hbig]
    obtain ⟨hw2, hh2⟩ := hbig
    refine hG.unique ⟨?_, ?_⟩
    · show ∃ c, IsPassDist p c 2
      by_cases hsx0 : p.start.1 = 0
      · by_cases hsy0 : p.start.2 = 0
        · exact ⟨((p.w : Int) - 1, (p.h : Int) - 1),
            isPassDist_two_aux hobs hs ⟨by omega, by omega⟩ ⟨by omega, by omega⟩
              (by omega) (by omega)
              (ReachFrom.step ReachFrom.refl
                ⟨(1, 0), by decide, rest_empty_right hobs hs⟩)⟩
        · exact ⟨((p.w : Int) - 1, 0),
            isPassDist_two_aux hobs hs ⟨by omega, by omega⟩ ⟨by omega, by omega⟩
              (by omega) (fun h => hsy0 (by omega))
              (ReachFrom.step ReachFrom.refl
                ⟨(1, 0), by decide, rest_empty_right hobs hs⟩)⟩
      · by_cases hsy0 : p.start.2 = 0
        · exact ⟨(0, (p.h : Int) - 1),
            isPassDist_two_aux hobs hs ⟨by omega, by omega⟩ ⟨by omega, by omega⟩
              (fun h => hsx0 (by omega)) (by omega)
              (ReachFrom.step ReachFrom.refl
                ⟨(-1, 0), by decide, rest_empty_left hobs hs⟩)⟩
        · exact ⟨(0, 0),
            isPassDist_two_aux hobs hs ⟨by omega, by omega⟩ ⟨by omega, by omega⟩
              (fun h => hsx0 (by omega)) (fun h => hsy0 (by omega))
              (ReachFrom.step ReachFrom.refl
                ⟨(-1, 0), by decide, rest_empty_left hobs hs⟩)⟩
    · rintro v ⟨c, hpw, hleast⟩
      exact hleast 2 (passWithin_two_all hobs hs v c hpw)
  · rw [if_neg hbig]
    by_cases h11 : p.w = 1 ∧ p.h = 1
    · rw [if_pos h11]
      refine (max_distance_eq_zero_iff p hw hh hW hH hs).mpr ?_
      intro d hd
      rw [pblocked_empty hobs]
      simp only [deltas, List.mem_cons, List.not_mem_nil, or_false] at hd
      have hfalse : inGrid p (cadd p.start d) = false := by
        rcases hd with h | h | h | h <;> subst h
        · show inGrid p (p.start.1 + -1, p.start.2 + 0) = false
          rw [inGrid_false_iff]
          omega
        · show inGrid p (p.start.1 + 1, p.start.2 + 0) = false
          rw [inGrid_false_iff]
          omega
        · show inGrid p (p.start.1 + 0, p.start.2 + -1) = false
          rw [inGrid_false_iff]
          omega
        · show inGrid p (p.start.1 + 0, p.start.2 + 1) = false
          rw [inGrid_false_iff]
          omega
      rw [hfalse]
      rfl
    · rw [if_neg h11]
      have hstrip : (p.w = 1 ∧ 1 < p.h) ∨ (p.h = 1 ∧ 1 < p.w) := by omega
      refine hG.unique ⟨?_, ?_⟩
      · show ∃ c, IsPassDist p c 1
        rcases hstrip with ⟨hw1, hh2⟩ | ⟨hh1, hw2⟩
        · by_cases hdown : p.start.2 + 1 < (p.h : Int)
          · have hfree : pblocked p (cadd p.start (0, 1)) = false := by
              show pblocked p (p.start.1 + 0, p.start.2 + 1) = false
              rw [pblocked_empty_iff hobs]
              refine ⟨by omega, by omega, by omega, by omega⟩
            exact ⟨cadd p.start (0, 1), isPassDist_one (by decide) hfree⟩
          · have hfree : pblocked p (cadd p.start (0, -1)) = false := by
              show pblocked p (p.start.1 + 0, p.start.2 + -1) = false
              rw [pblocked_empty_iff hobs]
              refine ⟨by omega, by omega, by omega, by omega⟩
            exact ⟨cadd p.start (0, -1), isPassDist_one (by decide) hfree⟩
        · by_cases hright : p.start.1 + 1 < (p.w : Int)
          · have hfree : pblocked p (cadd p.start (1, 0)) = false := by
              show pblocked p (p.start.1 + 1, p.start.2 + 0) = false
              rw [pblocked_empty_iff hobs]
              refine ⟨by omega, by omega, by omega, by omega⟩
            exact ⟨cadd p.start (1, 0), isPassDist_one (by decide) hfree⟩
          · have hfree : pblocked p (cadd p.start (-1, 0)) = false := by
              show pblocked p (p.start.1 + -1, p.start.2 + 0) = false
              rw [pblocked_empty_iff hobs]
              refine ⟨by omega, by omega, by omega, by omega⟩
            exact ⟨cadd p.start (-1, 0), isPassDist_one (by decide) hfree⟩
      · rintro v ⟨c, hpw, hleast⟩
        apply hleast
        have hcg : inGrid p c = true := by
          rcases hpw with h | ⟨_, _, q, hq, d, hd, hmem⟩
          · rw [h]
            exact hs
          · exact path_inGrid hmem
        have hcb := (inGrid_iff p c).mp hcg
        rcases hstrip with ⟨hw1, _⟩ | ⟨hh1, _⟩
        · exact passWithin_one_cross hobs hs hcg (Or.inl (by omega))
        · exact passWithin_one_cross hobs hs hcg (Or.inr (by omega))

/-- C5 counterexample: the obstacle-free 2×2 grid is not 1×1, yet the
solver returns `2`, not `1` as the claim states. -/
theorem max_distance_empty_counterexample :
    (∀ c, (emptyPuzzle 2 2 (0, 0)).obstacle c = false) ∧
    ¬(max_distance (emptyPuzzle 2 2 (0, 0)) = 1) ∧
    max_distance (emptyPuzzle 2 2 (0, 0)) = 2 :=
  ⟨fun _ => rfl, by decide, by decide⟩

/-- Witness for the amended C5 at a concrete input. -/
theorem max_distance_empty_witness :
    max_distance (emptyPuzzle 2 3 (0, 1)) =
      if 1 < (emptyPuzzle 2 3 (0, 1)).w ∧ 1 < (emptyPuzzle 2 3 (0, 1)).h then 2
      else if (emptyPuzzle 2 3 (0, 1)).w = 1 ∧ (emptyPuzzle 2 3 (0, 1)).h = 1 then 0
      else 1 :=
  max_distance_empty (emptyPuzzle 2 3 (0, 1)) (fun _ => rfl)
    (by decide) (by decide) (by decide) (by decide) (by decide)

/-! ### The obstacle bound (C2) -/

theorem mem_cellsList (p : Puzzle) (c : Cell) :
    c ∈ cellsList p ↔ inGrid p c = true := by
  unfold cellsList
  simp only [List.mem_flatMap, List.mem_map, List.mem_range]
  rw [inGrid_iff]
  constructor
  · rintro ⟨y, hy, x, hx, rfl⟩
    refine ⟨?_, ?_, ?_, ?_⟩ <;> simp [Int.ofNat_eq_natCast] <;> omega
  · intro hb
    refine ⟨c.2.toNat, by omega, c.1.toNat, by omega, ?_⟩
    have e1 : (Int.ofNat c.1.toNat) = c.1 := Int.toNat_of_nonneg hb.1
    have e2 : (Int.ofNat c.2.toNat) = c.2 := Int.toNat_of_nonneg hb.2.2.1
    rw [e1, e2]

theorem cellsList_nodup (p : Puzzle) : (cellsList p).Nodup := by
  unfold cellsList
  rw [List.nodup_flatMap]
  constructor
  · intro y _
    refine List.Nodup.map ?_ (List.nodup_range _)
    intro a b hab
    have h1 := congrArg Prod.fst hab
    have h1' : Int.ofNat a = Int.ofNat b := h1
    exact Int.ofNat.inj h1'
  · refine List.Pairwise.imp ?_ (List.nodup_range p.h)
    intro a b hab
    intro x hxa hxb
    rw [List.mem_map] at hxa hxb
    obtain ⟨xa, _, rfl⟩ := hxa
    obtain ⟨xb, _, hxx⟩ := hxb
    have h2 := congrArg Prod.snd hxx
    have h2' : Int.ofNat b = Int.ofNat a := h2
    exact hab (Int.ofNat.inj h2').symm

theorem count_obstacles_eq (p : Puzzle) :
    count_obstacles p = ((gridFinset p).filter (fun c => p.obstacle c = true)).card := by
  unfold count_obstacles
  have hnd : ((cellsList p).filter (fun c => p.obstacle c)).Nodup :=
    (cellsList_nodup p).filter _
  rw [← List.toFinset_card_of_nodup hnd]
  congr 1
  ext c
  rw [List.mem_toFinset, List.mem_filter, Finset.mem_filter, mem_gridFinset,
    mem_cellsList]

/-- `n` is the exact (minimal) stop-distance of `c`. -/
def IsStopDist (p : Puzzle) (c : Cell) (n : Nat) : Prop :=
  ReachN p n c ∧ ∀ m, ReachN p m c → n ≤ m

theorem exists_isStopDist {p : Puzzle} {c : Cell} (h : ∃ n, ReachN p n c) :
    ∃ n, IsStopDist p c n := by
  classical
  exact ⟨Nat.find h, Nat.find_spec h, fun m hm => Nat.find_min' h hm⟩

theorem isStopDist_pred {p : Puzzle} {c : Cell} {n : Nat}
    (h : IsStopDist p c (n + 1)) : ∃ b, IsStopDist p b n ∧ Step p b c := by
  obtain ⟨hr, hmin⟩ := h
  cases hr with
  | step hprev hstep =>
    rename_i b
    obtain ⟨nb, hnb⟩ := exists_isStopDist ⟨n, hprev⟩
    have h1 : nb ≤ n := hnb.2 n hprev
    have h2 : n ≤ nb := by
      by_contra hcon
      push_neg at hcon
      have hr2 : ReachN p (nb + 1) c := ReachFrom.step hnb.1 hstep
      have := hmin (nb + 1) hr2
      omega
    have heq : nb = n := le_antisymm h1 h2
    subst heq
    exact ⟨b, hnb, hstep⟩

theorem isStopDist_levels {p : Puzzle} :
    ∀ (n : Nat) (c : Cell), IsStopDist p c n → ∀ j, j ≤ n → ∃ x, IsStopDist p x j := by
  intro n
  induction n with
  | zero =>
    intro c h j hj
    have hj0 : j = 0 := by omega
    subst hj0
    exact ⟨c, h⟩
  | succ n ih =>
    intro c h j hj
    rcases Nat.eq_or_lt_of_le hj with he | hlt
    · subst he
      exact ⟨c, h⟩
    · obtain ⟨b, hb, _⟩ := isStopDist_pred h
      exact ih b hb j (by omega)

theorem reach_inGrid {p : Puzzle} (hs : inGrid p p.start = true) :
    ∀ (m : Nat) (c : Cell), ReachN p m c → inGrid p c = true := by
  intro m c h
  induction h with
  | refl => exact hs
  | step hrf hstep ih =>
    obtain ⟨d, hd, hr⟩ := hstep
    rw [← hr]
    exact rest_inGrid hd ih

theorem isStopDist_blocked {p : Puzzle} (hs : inGrid p p.start = true)
    {c : Cell} {n : Nat} (h : IsStopDist p c n) (hn : 0 < n) :
    inGrid p c = true ∧ ∃ d ∈ deltas, pblocked p (cadd c d) = true := by
  cases n with
  | zero => omega
  | succ n =>
    obtain ⟨b, hb, hstep⟩ := isStopDist_pred h
    obtain ⟨d, hd, hr⟩ := hstep
    have hbg : inGrid p b = true := reach_inGrid hs n b hb.1
    constructor
    · rw [← hr]
      exact rest_inGrid hd hbg
    · exact ⟨d, hd, by rw [← hr]; exact rest_next_blocked hd hbg⟩

/-- Cells at which a slide can come to rest: in-grid cells with a blocked
neighbour in some direction. -/
def stopCellsFinset (p : Puzzle) : Finset Cell :=
  (gridFinset p).filter (fun c => ∃ d ∈ deltas, pblocked p (cadd c d) = true)

theorem neg_mem_deltas : ∀ d ∈ deltas, ((-d.1, -d.2) : Cell) ∈ deltas := by decide

theorem cadd_neg (c d : Cell) : cadd (cadd c d) (-d.1, -d.2) = c := by
  unfold cadd
  simp

theorem stopCells_near_obstacle_card (p : Puzzle) :
    ((gridFinset p).filter
      (fun c => ∃ d ∈ deltas, inGrid p (cadd c d) = true ∧
        p.obstacle (cadd c d) = true)).card ≤ 4 * count_obstacles p := by
  classical
  set obstF := (gridFinset p).filter (fun c => p.obstacle c = true) with hobstF
  have hsub : (gridFinset p).filter
      (fun c => ∃ d ∈ deltas, inGrid p (cadd c d) = true ∧
        p.obstacle (cadd c d) = true) ⊆
      obstF.biUnion (fun o => deltas.toFinset.image (fun d => cadd o d)) := by
    intro c hc
    rw [Finset.mem_filter] at hc
    obtain ⟨hg, d, hd, hin, hob⟩ := hc
    rw [Finset.mem_biUnion]
    refine ⟨cadd c d, ?_, ?_⟩
    · rw [hobstF, Finset.mem_filter, mem_gridFinset]
      exact ⟨hin, hob⟩
    · rw [Finset.mem_image]
      exact ⟨(-d.1, -d.2), List.mem_toFinset.mpr (neg_mem_deltas d hd), cadd_neg c d⟩
  calc ((gridFinset p).filter
      (fun c => ∃ d ∈ deltas, inGrid p (cadd c d) = true ∧
        p.obstacle (cadd c d) = true)).card
      ≤ (obstF.biUnion (fun o => deltas.toFinset.image (fun d => cadd o d))).card :=
        Finset.card_le_card hsub
    _ ≤ ∑ o ∈ obstF, (deltas.toFinset.image (fun d => cadd o d)).card :=
        Finset.card_biUnion_le
    _ ≤ ∑ _o ∈ obstF, 4 := by
        refine Finset.sum_le_sum ?_
        intro o _
        refine le_trans Finset.card_image_le ?_
        decide
    _ = 4 * count_obstacles p := by
        rw [Finset.sum_const, smul_eq_mul, count_obstacles_eq, hobstF]
        ring

theorem stopCells_border_card (p : Puzzle) :
    ((gridFinset p).filter
      (fun c => ∃ d ∈ deltas, inGrid p (cadd c d) = false)).card ≤
      2 * (p.w + p.h) := by
  classical
  set L1 := (Finset.range p.h).image (fun y => ((0 : Int), Int.ofNat y)) with hL1
  set L2 := (Finset.range p.h).image (fun y => ((p.w : Int) - 1, Int.ofNat y)) with hL2
  set L3 := (Finset.range p.w).image (fun x => (Int.ofNat x, (0 : Int))) with hL3
  set L4 := (Finset.range p.w).image (fun x => (Int.ofNat x, (p.h : Int) - 1)) with hL4
  have hsub : (gridFinset p).filter
      (fun c => ∃ d ∈ deltas, inGrid p (cadd c d) = false) ⊆ L1 ∪ L2 ∪ L3 ∪ L4 := by
    intro c hc
    rw [Finset.mem_filter, mem_gridFinset, inGrid_iff] at hc
    obtain ⟨hg, d, hd, hout⟩ := hc
    have hout' : ¬(0 ≤ (cadd c d).1 ∧ (cadd c d).1 < (p.w : Int) ∧
        0 ≤ (cadd c d).2 ∧ (cadd c d).2 < (p.h : Int)) := by
      intro h
      rw [← inGrid_iff] at h
      rw [h] at hout
      cases hout
    simp only [Finset.mem_union]
    simp only [deltas, List.mem_cons, List.not_mem_nil, or_false] at hd
    rcases hd with rfl | rfl | rfl | rfl
    · -- d = (-1, 0): c.1 = 0
      left; left; left
      rw [hL1, Finset.mem_image]
      refine ⟨c.2.toNat, Finset.mem_range.mpr (by omega), ?_⟩
      have h1 : c.1 = 0 := by
        simp only [cadd] at hout'
        omega
      have h2 : Int.ofNat c.2.toNat = c.2 := Int.toNat_of_nonneg hg.2.2.1
      rw [h2, ← h1]
    · -- d = (1, 0): c.1 = w - 1
      left; left; right
      rw [hL2, Finset.mem_image]
      refine ⟨c.2.toNat, Finset.mem_range.mpr (by omega), ?_⟩
      have h1 : c.1 = (p.w : Int) - 1 := by
        simp only [cadd] at hout'
        omega
      have h2 : Int.ofNat c.2.toNat = c.2 := Int.toNat_of_nonneg hg.2.2.1
      rw [h2, ← h1]
    · -- d = (0, -1): c.2 = 0
      left; right
      rw [hL3, Finset.mem_image]
      refine ⟨c.1.toNat, Finset.mem_range.mpr (by omega), ?_⟩
      have h1 : c.2 = 0 := by
        simp only [cadd] at hout'
        omega
      have h2 : Int.ofNat c.1.toNat = c.1 := Int.toNat_of_nonneg hg.1
      rw [h2, ← h1]
    · -- d = (0, 1): c.2 = h - 1
      right
      rw [hL4, Finset.mem_image]
      refine ⟨c.1.toNat, Finset.mem_range.mpr (by omega), ?_⟩
      have h1 : c.2 = (p.h : Int) - 1 := by
        simp only [cadd] at hout'
        omega
      have h2 : Int.ofNat c.1.toNat = c.1 := Int.toNat_of_nonneg hg.1
      rw [h2, ← h1]
  have hc1 : L1.card ≤ p.h := le_trans Finset.card_image_le (le_of_eq (Finset.card_range _))
  have hc2 : L2.card ≤ p.h := le_trans Finset.card_image_le (le_of_eq (Finset.card_range _))
  have hc3 : L3.card ≤ p.w := le_trans Finset.card_image_le (le_of_eq (Finset.card_range _))
  have hc4 : L4.card ≤ p.w := le_trans Finset.card_image_le (le_of_eq (Finset.card_range _))
  have hu : (L1 ∪ L2 ∪ L3 ∪ L4).card ≤ L1.card + L2.card + L3.card + L4.card := by
    calc (L1 ∪ L2 ∪ L3 ∪ L4).card ≤ (L1 ∪ L2 ∪ L3).card + L4.card := Finset.card_union_le _ _
      _ ≤ (L1 ∪ L2).card + L3.card + L4.card := by
          have := Finset.card_union_le (L1 ∪ L2) L3
          omega
      _ ≤ L1.card + L2.card + L3.card + L4.card := by
          have := Finset.card_union_le L1 L2
          omega
  calc ((gridFinset p).filter
      (fun c => ∃ d ∈ deltas, inGrid p (cadd c d) = false)).card
      ≤ (L1 ∪ L2 ∪ L3 ∪ L4).card := Finset.card_le_card hsub
    _ ≤ L1.card + L2.card + L3.card + L4.card := hu
    _ ≤ 2 * (p.w + p.h) := by omega

theorem stopCells_card_le (p : Puzzle) :
    (stopCellsFinset p).card ≤ 4 * count_obstacles p + 2 * (p.w + p.h) := by
  classical
  have hsub : stopCellsFinset p ⊆
      (gridFinset p).filter
        (fun c => ∃ d ∈ deltas, inGrid p (cadd c d) = true ∧
          p.obstacle (cadd c d) = true) ∪
      (gridFinset p).filter
        (fun c => ∃ d ∈ deltas, inGrid p (cadd c d) = false) := by
    intro c hc
    rw [stopCellsFinset, Finset.mem_filter] at hc
    obtain ⟨hg, d, hd, hblk⟩ := hc
    rw [Finset.mem_union]
    by_cases hin : inGrid p (cadd c d) = true
    · left
      rw [Finset.mem_filter]
      refine ⟨hg, d, hd, hin, ?_⟩
      rw [pblocked, hin] at hblk
      simpa using hblk
    · right
      rw [Finset.mem_filter]
      exact ⟨hg, d, hd, Bool.not_eq_true _ ▸ (eq_false_of_ne_true hin)⟩
  calc (stopCellsFinset p).card
      ≤ _ := Finset.card_le_card hsub
    _ ≤ _ + _ := Finset.card_union_le _ _
    _ ≤ 4 * count_obstacles p + 2 * (p.w + p.h) :=
        Nat.add_le_add (stopCells_near_obstacle_card p) (stopCells_border_card p)

/-- C2 (amended): `max_distance p ≤ 4 * count_obstacles p + 2 * (p.w + p.h) + 1`.
The spec's bound `4 * count_obstacles p + 1` fails already for the obstacle-free
2×2 grid; walls contribute stopping positions too, so a correct bound adds the
border term `2 * (w + h)`. Every trajectory's intermediate rest cells have
strictly increasing minimal stop-distances, and each rest cell other than the
start is adjacent to an obstacle or to the grid border. -/
theorem max_distance_le_obstacle_bound (p : Puzzle)
    (hw : 0 < p.w) (hh : 0 < p.h) (hW : p.w ≤ MAXW - 1) (hH : p.h ≤ MAXH)
    (hs : inGrid p p.start = true) :
    max_distance p ≤ 4 * count_obstacles p + 2 * (p.w + p.h) + 1 := by
  classical
  have hG := max_distance_is_greatest_passdist p hw hh hW hH hs
  obtain ⟨c, hpw, hleast⟩ := hG.1
  rcases hpw with hst | ⟨m, hm, q, hq, d, hd, hmem⟩
  · have := hleast 0 (Or.inl hst)
    omega
  · obtain ⟨nq, hnq⟩ := exists_isStopDist ⟨m, hq⟩
    have hub : max_distance p ≤ nq + 1 :=
      hleast (nq + 1) (Or.inr ⟨nq, by omega, q, hnq.1, d, hd, hmem⟩)
    by_cases hnq0 : nq = 0
    · omega
    · have hch : ∀ j : Nat, ∃ x : Cell, j ∈ Finset.Icc 1 nq → IsStopDist p x j := by
        intro j
        by_cases hj : j ∈ Finset.Icc 1 nq
        · obtain ⟨x, hx⟩ := isStopDist_levels nq q hnq j (Finset.mem_Icc.mp hj).2
          exact ⟨x, fun _ => hx⟩
        · exact ⟨(0, 0), fun h => absurd h hj⟩
      choose f hf using hch
      have hmaps : ∀ j ∈ Finset.Icc 1 nq, f j ∈ stopCellsFinset p := by
        intro j hj
        have hx := hf j hj
        have hj1 : 0 < j := (Finset.mem_Icc.mp hj).1
        have hb := isStopDist_blocked hs hx hj1
        rw [stopCellsFinset, Finset.mem_filter, mem_gridFinset]
        exact ⟨hb.1, hb.2⟩
      have hinj : Set.InjOn f (Finset.Icc 1 nq) := by
        intro a ha b hb hab
        have hxa := hf a ha
        have hxb := hf b hb
        rw [hab] at hxa
        have h1 := hxa.2 b hxb.1
        have h2 := hxb.2 a (hab ▸ hxa.1)
        omega
      have hcard : nq ≤ (stopCellsFinset p).card := by
        have hic : (Finset.Icc 1 nq).card = nq := by
          rw [Nat.card_Icc]
          omega
        rw [← hic]
        exact Finset.card_le_card_of_injOn f hmaps hinj
      have hcb := stopCells_card_le p
      omega

/-- C2 counterexample: the spec's bound `max_distance ≤ 4 * count_obstacles + 1`
fails for the obstacle-free 2×2 grid, where no cell has an obstacle yet two
moves are needed to pass the far corner. -/
theorem max_distance_obstacle_bound_counterexample :
    count_obstacles (emptyPuzzle 2 2 (0, 0)) = 0 ∧
    max_distance (emptyPuzzle 2 2 (0, 0)) = 2 ∧
    ¬(max_distance (emptyPuzzle 2 2 (0, 0)) ≤
        4 * count_obstacles (emptyPuzzle 2 2 (0, 0)) + 1) := by
  refine ⟨by decide, by decide, by decide⟩

/-- Witness for the amended C2 bound at a concrete puzzle. -/
theorem max_distance_le_obstacle_bound_witness :
    max_distance (emptyPuzzle 2 2 (0, 0)) ≤
      4 * count_obstacles (emptyPuzzle 2 2 (0, 0)) +
        2 * ((emptyPuzzle 2 2 (0, 0)).w + (emptyPuzzle 2 2 (0, 0)).h) + 1 :=
  max_distance_le_obstacle_bound (emptyPuzzle 2 2 (0, 0)) (by decide) (by decide)
    (by decide) (by decide) (by decide)

/-! ### The two historical `to_coords` decoders (C9) -/

/-- `RelativePosition`: gap between consecutive objects on one axis. -/
inductive RelativePosition where
  | SAME
  | NEXT
  | SKIP
deriving DecidableEq

/-- The running-coordinate loop of `to_coords`: starting from `x`, each gap
advances by `delta` and records the new coordinate. -/
def coordsFrom (delta : RelativePosition → Int) : Int → List RelativePosition → List Int
  | _, [] => []
  | x, r :: rs => (x + delta r) :: coordsFrom delta (x + delta r) rs

/-- The final value of the running coordinate (the written `w`). -/
def lastCoord (delta : RelativePosition → Int) : Int → List RelativePosition → Int
  | x, [] => x
  | x, r :: rs => lastCoord delta (x + delta r) rs

/-- Gap widths of version 1 of `RelativePuzzle::to_coords`: `SKIP` adds 4. -/
def deltaV1 : RelativePosition → Int
  | .SAME => 0
  | .NEXT => 1
  | .SKIP => 4

/-- Gap widths of version 2 of `RelativePuzzle::to_coords`: `SKIP` adds 3. -/
def deltaV2 : RelativePosition → Int
  | .SAME => 0
  | .NEXT => 1
  | .SKIP => 3

/-- Version 1 of `to_coords`: the coordinate array and the extent `w`,
starting from `x = -1`. -/
def to_coords_v1 (rel : List RelativePosition) : List Int × Int :=
  (coordsFrom deltaV1 (-1) rel, (coordsFrom deltaV1 (-1) rel).getLastD (-1))

/-- Version 2 of `to_coords`, identical except that `SKIP` adds 3. -/
def to_coords_v2 (rel : List RelativePosition) : List Int × Int :=
  (coordsFrom deltaV2 (-1) rel, (coordsFrom deltaV2 (-1) rel).getLastD (-1))

theorem coordsFrom_getLastD (delta : RelativePosition → Int) :
    ∀ (rel : List RelativePosition) (x d : Int), rel ≠ [] →
      (coordsFrom delta x rel).getLastD d = lastCoord delta x rel := by
  intro rel
  induction rel with
  | nil => intro x d h; exact absurd rfl h
  | cons r rs ih =>
    intro x d _
    show ((x + delta r) :: coordsFrom delta (x + delta r) rs).getLastD d =
      lastCoord delta (x + delta r) rs
    cases rs with
    | nil => rfl
    | cons r2 rs2 =>
      rw [List.getLastD_cons]
      exact ih (x + delta r) (x + delta r) (List.cons_ne_nil _ _)

theorem lastCoord_sum (delta : RelativePosition → Int) :
    ∀ (rel : List RelativePosition) (x : Int),
      lastCoord delta x rel = x + (rel.map delta).sum := by
  intro rel
  induction rel with
  | nil => intro x; show x = x + ([] : List Int).sum; simp
  | cons r rs ih =>
    intro x
    show lastCoord delta (x + delta r) rs = x + (delta r :: rs.map delta).sum
    rw [ih (x + delta r), List.sum_cons]
    ring

theorem sum_deltaV1_eq (rel : List RelativePosition) :
    (rel.map deltaV1).sum =
      (rel.map deltaV2).sum + (rel.count RelativePosition.SKIP : Int) := by
  induction rel with
  | nil => simp
  | cons r rs ih =>
    rw [List.map_cons, List.map_cons, List.sum_cons, List.sum_cons,
      List.count_cons, ih]
    cases r <;> simp [deltaV1, deltaV2] <;> push_cast <;> ring

/-- C9: the two historical `to_coords` decoders (`SKIP` adding 4 versus 3
cells) are not extensionally equivalent: any gap sequence containing a `SKIP`
yields a different extent and a different coordinate array, so the two
decoders differ as functions. -/
theorem to_coords_versions_differ (rel : List RelativePosition)
    (h : RelativePosition.SKIP ∈ rel) :
    (to_coords_v1 rel).2 ≠ (to_coords_v2 rel).2 ∧
    (to_coords_v1 rel).1 ≠ (to_coords_v2 rel).1 ∧
    to_coords_v1 ≠ to_coords_v2 := by
  have hcount : 0 < rel.count RelativePosition.SKIP := List.count_pos_iff.mpr h
  have hne : rel ≠ [] := by
    intro he
    rw [he] at h
    exact (List.not_mem_nil _) h
  have h1 : (to_coords_v1 rel).2 = -1 + (rel.map deltaV1).sum := by
    show (coordsFrom deltaV1 (-1) rel).getLastD (-1) = _
    rw [coordsFrom_getLastD deltaV1 rel (-1) (-1) hne, lastCoord_sum]
  have h2 : (to_coords_v2 rel).2 = -1 + (rel.map deltaV2).sum := by
    show (coordsFrom deltaV2 (-1) rel).getLastD (-1) = _
    rw [coordsFrom_getLastD deltaV2 rel (-1) (-1) hne, lastCoord_sum]
  have hfst : (to_coords_v1 rel).2 ≠ (to_coords_v2 rel).2 := by
    rw [h1, h2, sum_deltaV1_eq]
    omega
  refine ⟨hfst, ?_, ?_⟩
  · intro heq
    apply hfst
    show (to_coords_v1 rel).1.getLastD (-1) = (to_coords_v2 rel).1.getLastD (-1)
    rw [heq]
  · intro hfe
    exact hfst (by rw [hfe])

/-- Witness for C9 at the one-gap sequence `[SKIP]`, where version 1 yields
extent 3 and version 2 yields extent 2. -/
theorem to_coords_versions_differ_witness :
    RelativePosition.SKIP ∈ [RelativePosition.SKIP] ∧
    ((to_coords_v1 [RelativePosition.SKIP]).2 ≠
        (to_coords_v2 [RelativePosition.SKIP]).2 ∧
      (to_coords_v1 [RelativePosition.SKIP]).1 ≠
        (to_coords_v2 [RelativePosition.SKIP]).1 ∧
      to_coords_v1 ≠ to_coords_v2) :=
  ⟨by decide, to_coords_versions_differ [RelativePosition.SKIP] (by decide)⟩

/-! ### `RelativePuzzle` decoding and `relative_puzzle_search` (C6, C8) -/

/-- `RelativePuzzle` (version 1): objects are placed by relative gaps; with
`num_objects` objects there are `num_objects + 1` gaps per axis. -/
structure RelativePuzzle where
  num_objects : Nat
  horizontal_pos : List RelativePosition
  vertical_pos : List RelativePosition
  permutation : List Nat
  start_index : Nat

/-- Pointwise update of an obstacle map. -/
def setCell (f : Cell → Bool) (c : Cell) (v : Bool) : Cell → Bool :=
  fun x => if x = c then v else f x

/-- `Puzzle::clear`: reset the obstacle flags of all cells in rows
`0 ≤ y < h` (the buffer region the C++ `fill_n` covers). -/
def clearGrid (h : Nat) (f : Cell → Bool) : Cell → Bool :=
  fun c => if 0 ≤ c.1 ∧ c.1 < (MAXW : Int) ∧ 0 ≤ c.2 ∧ c.2 < (h : Int) then false else f c

/-- The placement loop of `to_puzzle`: for `i < n`, object `i` goes to
`(x_coords[i], y_coords[permutation[i]])`; index `start_index` becomes the
start, every other index becomes an obstacle. -/
def placeObjects (rp : RelativePuzzle) (xc yc : List Int) : Nat → Puzzle → Puzzle
  | 0, pz => pz
  | Nat.succ i, pz =>
      let pz2 := placeObjects rp xc yc i pz
      let pos : Cell := (xc.getD i (-1), yc.getD (rp.permutation.getD i 0) (-1))
      if i = rp.start_index then { pz2 with start := pos }
      else { pz2 with obstacle := setCell pz2.obstacle pos true }

/-- `RelativePuzzle::to_puzzle` (version 1): decode the gap lists with
`to_coords` (SKIP = +4), writing `puzzle.w` and `puzzle.h` before the
validity check; on an invalid extent return `false` with the partially
updated puzzle, else clear the grid, place all objects and return `true`. -/
def to_puzzle (rp : RelativePuzzle) (pz : Puzzle) : Bool × Puzzle :=
  let x_coords := coordsFrom deltaV1 (-1) rp.horizontal_pos
  let y_coords := coordsFrom deltaV1 (-1) rp.vertical_pos
  let w := x_coords.getLastD (-1)
  let h := y_coords.getLastD (-1)
  let pz1 : Puzzle := { pz with w := w.toNat, h := h.toNat }
  if w = 0 ∨ (MAXW : Int) < w ∨ x_coords.getD 0 (-1) = -1 then (false, pz1)
  else if h = 0 ∨ (MAXH : Int) < h ∨ y_coords.getD 0 (-1) = -1 then (false, pz1)
  else
    (true, placeObjects rp x_coords y_coords rp.num_objects
      { pz1 with obstacle := clearGrid h.toNat pz1.obstacle })

/-- `first_relative_puzzle`: `obstacles + 1` objects, start index 0, all gaps
`SAME` except the two wall gaps, identity permutation. -/
def first_relative_puzzle (obstacles : Nat) : RelativePuzzle :=
  { num_objects := obstacles + 1
    horizontal_pos := (List.range (obstacles + 2)).map
      (fun i => if i = 0 ∨ i = obstacles + 1 then RelativePosition.NEXT
        else RelativePosition.SAME)
    vertical_pos := (List.range (obstacles + 2)).map
      (fun i => if i = 0 ∨ i = obstacles + 1 then RelativePosition.NEXT
        else RelativePosition.SAME)
    permutation := List.range (obstacles + 1)
    start_index := 0 }

/-- The mutable state of `relative_puzzle_search`: the best grid so far, its
score, and the decoding buffer reused across iterations. -/
structure SearchState where
  best : Puzzle
  best_score : Int
  puzzle : Puzzle

/-- One iteration of the `relative_puzzle_search` loop body: decode `rp` into
the buffer — discarding `to_puzzle`'s boolean result, exactly as the C++ does —
then score the buffer and keep it as best on improvement. -/
def rpSearchStep (rp : RelativePuzzle) (s : SearchState) : SearchState :=
  let r := to_puzzle rp s.puzzle
  let puzzle := r.2
  let score : Int := (max_distance puzzle : Int)
  if s.best_score < score then
    { best := puzzle, best_score := score, puzzle := puzzle }
  else
    { s with puzzle := puzzle }

/-- C6 is violated (code bug): `first_relative_puzzle 1` decodes successfully
(`to_puzzle` returns `true`), yet the resulting puzzle's start cell is an
obstacle: both objects of the initial all-`SAME` encoding land on the same
cell `(0, 0)` of a 1×1 grid, one as the start and one as an obstacle. -/
theorem to_puzzle_start_is_obstacle :
    (to_puzzle (first_relative_puzzle 1) (emptyPuzzle 1 1 (0, 0))).1 = true ∧
    (to_puzzle (first_relative_puzzle 1) (emptyPuzzle 1 1 (0, 0))).2.obstacle
      (to_puzzle (first_relative_puzzle 1) (emptyPuzzle 1 1 (0, 0))).2.start = true := by
  decide

/-- C8 is violated (code bug): `relative_puzzle_search` ignores the boolean
result of `to_puzzle`. For an encoding whose decoding fails (height 0), the
loop body still scores the partially-written buffer and adopts it as the best
grid: the final state's best is the invalid 1×0 puzzle. -/
theorem relative_puzzle_search_scores_invalid :
    (to_puzzle
        ⟨1, [RelativePosition.NEXT, RelativePosition.NEXT],
          [RelativePosition.NEXT, RelativePosition.SAME], [0], 0⟩
        (emptyPuzzle 1 1 (0, 0))).1 = false ∧
    (rpSearchStep
        ⟨1, [RelativePosition.NEXT, RelativePosition.NEXT],
          [RelativePosition.NEXT, RelativePosition.SAME], [0], 0⟩
        ⟨emptyPuzzle 1 1 (0, 0), -1, emptyPuzzle 1 1 (0, 0)⟩).best_score = 0 ∧
    (rpSearchStep
        ⟨1, [RelativePosition.NEXT, RelativePosition.NEXT],
          [RelativePosition.NEXT, RelativePosition.SAME], [0], 0⟩
        ⟨emptyPuzzle 1 1 (0, 0), -1, emptyPuzzle 1 1 (0, 0)⟩).best.h = 0 ∧
    (rpSearchStep
        ⟨1, [RelativePosition.NEXT, RelativePosition.NEXT],
          [RelativePosition.NEXT, RelativePosition.SAME], [0], 0⟩
        ⟨emptyPuzzle 1 1 (0, 0), -1, emptyPuzzle 1 1 (0, 0)⟩).best.w = 1 := by
  decide

/-! ### The simulated-annealing acceptance step (C7) -/

/-- The mutable state of one `simulated_annealing_search` run: the global best
grid and score, and the walking puzzle with its score. -/
structure SAState where
  best : Puzzle
  best_score : Int
  puzzle : Puzzle
  score : Int

/-- One perturbation step of `simulated_annealing_search`, with the perturbed
puzzle `np` (the result of `random_change`), the uniform draw, and the
exponential function abstracted as `expF` (the C++ uses `exp` on `double`s).
The new score is compared with the global best first (updating `best`
immediately), and then the state is kept exactly when
`draw < expF (temp * (score - prev_score))`; otherwise the walking puzzle and
its score revert to their pre-perturbation values. -/
def saStep (expF : ℚ → ℚ) (temp : ℚ) (np : Puzzle) (draw : ℚ) (s : SAState) :
    SAState :=
  let score : Int := (max_distance np : Int)
  let best_score := if score > s.best_score then score else s.best_score
  let best := if score > s.best_score then np else s.best
  let accept : Bool := decide (draw < expF (temp * ((score - s.score : Int) : ℚ)))
  if accept then { best := best, best_score := best_score, puzzle := np, score := score }
  else { best := best, best_score := best_score, puzzle := s.puzzle, score := s.score }

/-- The rational 1/10 (the initial temperature of the annealing schedule). -/
def tempTenth : ℚ := ⟨1, 10, by decide, by decide⟩

/-- The rational 9/10, standing for `exp(0.1 · (2 − 3)) ≈ 0.905`. -/
def expNine10 : ℚ := ⟨9, 10, by decide, by decide⟩

/-- The rational 19/20 = 0.95: a possible uniform draw. -/
def draw95 : ℚ := ⟨19, 20, by decide, by decide⟩

/-- C7 counterexample: a perturbed 3×3 puzzle scoring 2 strictly exceeds the
global best score 0 — it even becomes the new best — yet the step still
reverts the walk to the pre-perturbation puzzle (score 3), because acceptance
only consults the Metropolis draw against the previous score, never the global
best. (The pre-perturbation score 3 can exceed the best score 0 because the
initial score of a run is never folded into the best.) Here
`expF _ = 9/10` stands for `exp(0.1 · (2 − 3)) ≈ 0.905` and the draw is
`0.95 ∈ [0, 1)`. -/
theorem sa_step_rejects_score_above_best :
    (0 : Int) < (max_distance (listPuzzle 3 3 (0, 0) [(1, 1)]) : Int) ∧
    (saStep (fun _ => expNine10) tempTenth (listPuzzle 3 3 (0, 0) [(1, 1)]) draw95
        ⟨emptyPuzzle 3 3 (0, 0), 0, listPuzzle 3 3 (0, 0) [(1, 0)], 3⟩).best_score = 2 ∧
    (saStep (fun _ => expNine10) tempTenth (listPuzzle 3 3 (0, 0) [(1, 1)]) draw95
        ⟨emptyPuzzle 3 3 (0, 0), 0, listPuzzle 3 3 (0, 0) [(1, 0)], 3⟩).puzzle =
      listPuzzle 3 3 (0, 0) [(1, 0)] ∧
    (saStep (fun _ => expNine10) tempTenth (listPuzzle 3 3 (0, 0) [(1, 1)]) draw95
        ⟨emptyPuzzle 3 3 (0, 0), 0, listPuzzle 3 3 (0, 0) [(1, 0)], 3⟩).score = 3 := by
  refine ⟨by decide, by decide, rfl, by decide⟩

/-- C7 (amended): in each perturbation step the global best grid and score are
updated immediately whenever the new score strictly improves on the best, but
acceptance of the perturbed state depends only on the Metropolis comparison
`draw < expF (temp * (new_score - prev_score))` — the global best never enters
the acceptance decision — and on rejection both the walking puzzle and its
score revert to their pre-perturbation values. -/
theorem saStep_characterization (expF : ℚ → ℚ) (temp draw : ℚ) (np : Puzzle)
    (s : SAState) :
    (draw < expF (temp * (((max_distance np : Int) - s.score : Int) : ℚ)) →
      (saStep expF temp np draw s).puzzle = np ∧
      (saStep expF temp np draw s).score = (max_distance np : Int)) ∧
    (¬ draw < expF (temp * (((max_distance np : Int) - s.score : Int) : ℚ)) →
      (saStep expF temp np draw s).puzzle = s.puzzle ∧
      (saStep expF temp np draw s).score = s.score) ∧
    (s.best_score < (max_distance np : Int) →
      (saStep expF temp np draw s).best = np ∧
      (saStep expF temp np draw s).best_score = (max_distance np : Int)) ∧
    (¬ s.best_score < (max_distance np : Int) →
      (saStep expF temp np draw s).best = s.best ∧
      (saStep expF temp np draw s).best_score = s.best_score) := by
  unfold saStep
  by_cases hacc :
      draw < expF (temp * ((max_distance np : ℚ) - ((s.score : Int) : ℚ))) <;>
    by_cases hbest : s.best_score < (max_distance np : Int) <;>
      simp [hacc, hbest, gt_iff_lt]

/-- Witness for the amended C7 characterization: at a concrete accepted step
(`expF _ = 1`, draw `0`), the perturbed puzzle is kept with its score. -/
theorem saStep_characterization_witness :
    (saStep (fun _ => 1) tempTenth (listPuzzle 3 3 (0, 0) [(1, 1)]) 0
        ⟨emptyPuzzle 3 3 (0, 0), 0, listPuzzle 3 3 (0, 0) [(1, 0)], 3⟩).puzzle =
      listPuzzle 3 3 (0, 0) [(1, 1)] ∧
    (saStep (fun _ => 1) tempTenth (listPuzzle 3 3 (0, 0) [(1, 1)]) 0
        ⟨emptyPuzzle 3 3 (0, 0), 0, listPuzzle 3 3 (0, 0) [(1, 0)], 3⟩).score =
      (max_distance (listPuzzle 3 3 (0, 0) [(1, 1)]) : Int) :=
  (saStep_characterization (fun _ => 1) tempTenth 0 (listPuzzle 3 3 (0, 0) [(1, 1)])
    ⟨emptyPuzzle 3 3 (0, 0), 0, listPuzzle 3 3 (0, 0) [(1, 0)], 3⟩).1 (by decide)

/-! ### Brute-force enumeration: `first_puzzle` / `next_puzzle` (C3) -/

/-- The cells visited by `SkipStartIterator`: all grid cells in iterator order
(`x` fastest), with the start cell skipped. -/
def skipCells (p : Puzzle) : List Cell :=
  (cellsList p).filter (fun c => decide (c ≠ p.start))

/-- Length of the leading run of `b`s of a Boolean vector. -/
def countLead (b : Bool) : List Bool → Nat
  | [] => 0
  | x :: xs => if x = b then countLead b xs + 1 else 0

/-- `next_puzzle` on the obstacle vector over the skip-start cell sequence:
find the leading `a` clear cells and the following run of `b` obstacles; fail
if there is no obstacle or the run reaches the end; otherwise change
`0^a 1^b 0 r` into `1^(b-1) 0^(a+1) 1 r` (move `b-1` obstacles to the front
and the last one past the first clear cell). -/
def nextVec (v : List Bool) : Option (List Bool) :=
  let a := countLead false v
  let b := countLead true (v.drop a)
  if b = 0 then none
  else
    match (v.drop a).drop b with
    | [] => none
    | _ :: r =>
      some (List.replicate (b - 1) true ++ List.replicate (a + 1) false ++ true :: r)

/-- `first_puzzle` on the obstacle vector: the first `k` positions are
obstacles. -/
def firstVec (N k : Nat) : List Bool :=
  List.replicate k true ++ List.replicate (N - k) false

/-- The sequence of obstacle vectors visited by iterating `nextVec` from `v`,
with enough `fuel`. -/
def vecSeq : Nat → List Bool → List (List Bool)
  | 0, _v => [_v]
  | fuel + 1, v =>
    v :: (match nextVec v with
      | none => []
      | some v2 => vecSeq fuel v2)

/-- The colexicographic rank of an obstacle vector: position `i` holding the
`j+1`-st obstacle contributes `C(i, j+1)`. -/
def vrank : List Bool → Nat → Nat → Nat
  | [], _, _ => 0
  | false :: xs, i, j => vrank xs (i + 1) j
  | true :: xs, i, j => Nat.choose i (j + 1) + vrank xs (i + 1) (j + 1)

/-- The rank contribution of a run of `b` consecutive obstacles starting at
position `i` after `j` earlier obstacles. -/
def sumRun (i j : Nat) : Nat → Nat
  | 0 => 0
  | b + 1 => Nat.choose i (j + 1) + sumRun (i + 1) (j + 1) b

/-- The finite set of Boolean vectors of length `N` with exactly `k` `true`s. -/
def vecsF : Nat → Nat → Finset (List Bool)
  | 0, 0 => {[]}
  | 0, _ + 1 => ∅
  | n + 1, 0 => (vecsF n 0).image (fun v => false :: v)
  | n + 1, k + 1 =>
    (vecsF n (k + 1)).image (fun v => false :: v) ∪
      (vecsF n k).image (fun v => true :: v)

theorem countLead_nil (b : Bool) : countLead b [] = 0 := rfl

theorem countLead_cons (b x : Bool) (xs : List Bool) :
    countLead b (x :: xs) = if x = b then countLead b xs + 1 else 0 := rfl

theorem countLead_replicate_append (b : Bool) (n : Nat) (t : List Bool) :
    countLead b (List.replicate n b ++ t) = n + countLead b t := by
  induction n with
  | zero => simp
  | succ n ih =>
    rw [List.replicate_succ, List.cons_append, countLead_cons, if_pos rfl, ih]
    omega

theorem countLead_spec (b : Bool) (v : List Bool) :
    v = List.replicate (countLead b v) b ++ v.drop (countLead b v) ∧
    (∀ x xs, v.drop (countLead b v) = x :: xs → x ≠ b) := by
  induction v with
  | nil => exact ⟨rfl, fun x xs h => by cases h⟩
  | cons y ys ih =>
    by_cases hy : y = b
    · subst hy
      rw [countLead_cons, if_pos rfl]
      constructor
      · rw [List.replicate_succ, List.cons_append, List.drop_succ_cons]
        exact congrArg (y :: ·) ih.1
      · intro x xs h
        rw [List.drop_succ_cons] at h
        exact ih.2 x xs h
    · rw [countLead_cons, if_neg hy]
      exact ⟨rfl, fun x xs h => by rw [List.drop_zero] at h; cases h; exact hy⟩

theorem drop_replicate_append (b : Bool) (n : Nat) (t : List Bool) :
    (List.replicate n b ++ t).drop n = t := by
  have h := List.drop_left (List.replicate n b) t
  rwa [List.length_replicate] at h

theorem nextVec_def (v : List Bool) : nextVec v =
    (if countLead true (v.drop (countLead false v)) = 0 then none
     else
       match (v.drop (countLead false v)).drop
           (countLead true (v.drop (countLead false v))) with
       | [] => none
       | _ :: r =>
         some (List.replicate (countLead true (v.drop (countLead false v)) - 1) true ++
           List.replicate (countLead false v + 1) false ++ true :: r)) := rfl

theorem countLead_false_of_true_head (b : Nat) (hb : 1 ≤ b) (t : List Bool) :
    countLead false (List.replicate b true ++ t) = 0 := by
  cases b with
  | zero => omega
  | succ b =>
    rw [List.replicate_succ, List.cons_append, countLead_cons, if_neg]
    simp

theorem nextVec_eq_some {v w : List Bool} :
    nextVec v = some w ↔ ∃ a b r, 1 ≤ b ∧
      v = List.replicate a false ++ List.replicate b true ++ false :: r ∧
      w = List.replicate (b - 1) true ++ List.replicate (a + 1) false ++ true :: r := by
  constructor
  · intro h
    rw [nextVec_def] at h
    by_cases hb : countLead true (v.drop (countLead false v)) = 0
    · rw [if_pos hb] at h
      cases h
    · rw [if_neg hb] at h
      cases hrest : (v.drop (countLead false v)).drop
          (countLead true (v.drop (countLead false v))) with
      | nil => rw [hrest] at h; cases h
      | cons x r =>
        rw [hrest] at h
        have hx : x ≠ true := (countLead_spec true (v.drop (countLead false v))).2 x r hrest
        have hx' : x = false := by
          cases x with
          | false => rfl
          | true => exact absurd rfl hx
        refine ⟨countLead false v, countLead true (v.drop (countLead false v)), r,
          by omega, ?_, ?_⟩
        · have h1 := (countLead_spec false v).1
          have h2 := (countLead_spec true (v.drop (countLead false v))).1
          rw [hrest, hx'] at h2
          conv_lhs => rw [h1, h2]
          rw [List.append_assoc]
        · cases h
          rfl
  · rintro ⟨a, b, r, hb, rfl, rfl⟩
    have hfz : countLead true (false :: r) = 0 := by
      rw [countLead_cons, if_neg (by simp)]
    have ha : countLead false (List.replicate a false ++
        (List.replicate b true ++ false :: r)) = a := by
      rw [countLead_replicate_append, countLead_false_of_true_head b hb]
      omega
    have hbv : countLead true (List.replicate b true ++ false :: r) = b := by
      rw [countLead_replicate_append, hfz]
      omega
    rw [nextVec_def, List.append_assoc, ha, drop_replicate_append, hbv,
      if_neg (by omega), drop_replicate_append]

theorem nextVec_none_shape {v : List Bool} (hc : 0 < v.count true)
    (h : nextVec v = none) :
    v = List.replicate (v.length - v.count true) false ++
      List.replicate (v.count true) true := by
  rw [nextVec_def] at h
  by_cases hb : countLead true (v.drop (countLead false v)) = 0
  · exfalso
    cases hdrop : v.drop (countLead false v) with
    | nil =>
      have h1 := (countLead_spec false v).1
      rw [hdrop, List.append_nil] at h1
      rw [h1, List.count_replicate] at hc
      simp at hc
    | cons x xs =>
      have hx : x ≠ false := (countLead_spec false v).2 x xs hdrop
      have hx' : x = true := by
        cases x with
        | false => exact absurd rfl hx
        | true => rfl
      rw [hdrop, countLead_cons, if_pos hx'] at hb
      omega
  · rw [if_neg hb] at h
    cases hrest : (v.drop (countLead false v)).drop
        (countLead true (v.drop (countLead false v))) with
    | cons x r => rw [hrest] at h; cases h
    | nil =>
      have h1 := (countLead_spec false v).1
      have h2 := (countLead_spec true (v.drop (countLead false v))).1
      rw [hrest, List.append_nil] at h2
      rw [h2] at h1
      have hcount : v.count true = countLead true (v.drop (countLead false v)) := by
        conv_lhs => rw [h1]
        simp [List.count_append, List.count_replicate]
      have hlen : v.length = countLead false v +
          countLead true (v.drop (countLead false v)) := by
        conv_lhs => rw [h1]
        simp
      rw [hcount, hlen, Nat.add_sub_cancel]
      exact h1

theorem vrank_nil (i j : Nat) : vrank [] i j = 0 := rfl

theorem vrank_false (xs : List Bool) (i j : Nat) :
    vrank (false :: xs) i j = vrank xs (i + 1) j := rfl

theorem vrank_true (xs : List Bool) (i j : Nat) :
    vrank (true :: xs) i j = Nat.choose i (j + 1) + vrank xs (i + 1) (j + 1) := rfl

theorem vrank_replicate_false (a : Nat) :
    ∀ (t : List Bool) (i j : Nat),
      vrank (List.replicate a false ++ t) i j = vrank t (i + a) j := by
  induction a with
  | zero => intro t i j; simp
  | succ a ih =>
    intro t i j
    rw [List.replicate_succ, List.cons_append, vrank_false, ih,
      show i + 1 + a = i + (a + 1) from by omega]

theorem sumRun_succ (i j b : Nat) :
    sumRun i j (b + 1) = Nat.choose i (j + 1) + sumRun (i + 1) (j + 1) b := rfl

theorem vrank_replicate_true (b : Nat) :
    ∀ (t : List Bool) (i j : Nat),
      vrank (List.replicate b true ++ t) i j =
        sumRun i j b + vrank t (i + b) (j + b) := by
  induction b with
  | zero => intro t i j; simp [sumRun]
  | succ b ih =>
    intro t i j
    rw [List.replicate_succ, List.cons_append, vrank_true, ih, sumRun_succ,
      show i + 1 + b = i + (b + 1) from by omega,
      show j + 1 + b = j + (b + 1) from by omega]
    omega

theorem sumRun_choose :
    ∀ (b i j : Nat), sumRun i j b + Nat.choose i j = Nat.choose (i + b) (j + b) := by
  intro b
  induction b with
  | zero => intro i j; simp [sumRun]
  | succ b ih =>
    intro i j
    rw [sumRun_succ,
      show i + (b + 1) = i + 1 + b from by omega,
      show j + (b + 1) = j + 1 + b from by omega]
    have h := ih (i + 1) (j + 1)
    have hp : Nat.choose (i + 1) (j + 1) = Nat.choose i j + Nat.choose i (j + 1) :=
      Nat.choose_succ_succ i j
    omega

theorem vrank_replicate_false_only (m i j : Nat) :
    vrank (List.replicate m false) i j = 0 := by
  have h := vrank_replicate_false m [] i j
  rw [List.append_nil] at h
  rw [h, vrank_nil]

theorem vrank_replicate_true_only (m i j : Nat) :
    vrank (List.replicate m true) i j = sumRun i j m := by
  have h := vrank_replicate_true m [] i j
  rw [List.append_nil] at h
  rw [h, vrank_nil]
  omega

theorem sumRun_zero_zero (b : Nat) : sumRun 0 0 b = 0 := by
  have h := sumRun_choose b 0 0
  simp [Nat.choose_self] at h
  omega

theorem vrank_bound :
    ∀ (v : List Bool) (i j : Nat),
      vrank v i j + Nat.choose i j ≤ Nat.choose (i + v.length) (j + v.count true) := by
  intro v
  induction v with
  | nil => intro i j; simp [vrank_nil]
  | cons x xs ih =>
    intro i j
    cases x with
    | false =>
      rw [vrank_false]
      have h := ih (i + 1) j
      have hm : Nat.choose i j ≤ Nat.choose (i + 1) j :=
        Nat.choose_le_choose j (Nat.le_succ i)
      have hcnt : (false :: xs).count true = xs.count true := by simp
      rw [List.length_cons, hcnt,
        show i + (xs.length + 1) = i + 1 + xs.length from by omega]
      omega
    | true =>
      rw [vrank_true]
      have h := ih (i + 1) (j + 1)
      have hp : Nat.choose (i + 1) (j + 1) = Nat.choose i j + Nat.choose i (j + 1) :=
        Nat.choose_succ_succ i j
      have hcnt : (true :: xs).count true = xs.count true + 1 := by simp
      rw [List.length_cons, hcnt,
        show i + (xs.length + 1) = i + 1 + xs.length from by omega,
        show j + (xs.count true + 1) = j + 1 + xs.count true from by omega]
      omega

theorem rank_next {v w : List Bool} (h : nextVec v = some w) :
    vrank w 0 0 = vrank v 0 0 + 1 ∧ w.length = v.length ∧
      w.count true = v.count true := by
  obtain ⟨a, b, r, hb, rfl, rfl⟩ := nextVec_eq_some.mp h
  cases b with
  | zero => omega
  | succ c =>
    refine ⟨?_, ?_, ?_⟩
    · rw [show (c + 1) - 1 = c from by omega]
      conv_lhs => rw [List.append_assoc, vrank_replicate_true,
        vrank_replicate_false, vrank_true]
      conv_rhs => rw [List.append_assoc, vrank_replicate_false,
        vrank_replicate_true, vrank_false]
      rw [sumRun_zero_zero]
      rw [show 0 + c + (a + 1) + 1 = a + c + 2 from by omega,
        show 0 + c + (a + 1) = a + c + 1 from by omega,
        show 0 + c + 1 = c + 1 from by omega,
        show 0 + a + (c + 1) + 1 = a + c + 2 from by omega,
        show 0 + (c + 1) = c + 1 from by omega,
        show 0 + a = a from by omega]
      have hs := sumRun_choose (c + 1) a 0
      rw [show a + (c + 1) = a + c + 1 from by omega,
        show 0 + (c + 1) = c + 1 from by omega, Nat.choose_zero_right] at hs
      omega
    · simp [List.length_append]
      omega
    · simp [List.count_append, List.count_replicate]
      omega

theorem rank_firstVec (N k : Nat) : vrank (firstVec N k) 0 0 = 0 := by
  rw [firstVec, vrank_replicate_true, sumRun_zero_zero, vrank_replicate_false_only]

theorem rank_lastVec (N k : Nat) (hkN : k ≤ N) :
    vrank (List.replicate (N - k) false ++ List.replicate k true) 0 0 + 1 =
      Nat.choose N k := by
  rw [vrank_replicate_false, vrank_replicate_true_only]
  have hs := sumRun_choose k (0 + (N - k)) 0
  rw [Nat.choose_zero_right] at hs
  rw [show 0 + (N - k) + k = N from by omega, show 0 + k = k from by omega] at hs
  omega

theorem mem_vecsF : ∀ (N k : Nat) (v : List Bool),
    v ∈ vecsF N k ↔ v.length = N ∧ v.count true = k := by
  intro N
  induction N with
  | zero =>
    intro k v
    cases k with
    | zero =>
      show v ∈ ({[]} : Finset (List Bool)) ↔ _
      rw [Finset.mem_singleton]
      constructor
      · rintro rfl; simp
      · rintro ⟨h1, _⟩; exact List.eq_nil_of_length_eq_zero h1
    | succ k =>
      show v ∈ (∅ : Finset (List Bool)) ↔ _
      constructor
      · intro h; exact absurd h (Finset.not_mem_empty v)
      · rintro ⟨h1, h2⟩
        have hv : v = [] := List.eq_nil_of_length_eq_zero h1
        subst hv
        simp at h2
  | succ N ih =>
    intro k v
    cases k with
    | zero =>
      show v ∈ (vecsF N 0).image (fun u => false :: u) ↔ _
      rw [Finset.mem_image]
      constructor
      · rintro ⟨u, hu, rfl⟩
        obtain ⟨h1, h2⟩ := (ih 0 u).mp hu
        simp [h1, h2]
      · rintro ⟨h1, h2⟩
        cases v with
        | nil => simp at h1
        | cons x xs =>
          have hx : x = false := by
            cases x with
            | false => rfl
            | true => simp [List.count_cons] at h2
          subst hx
          exact ⟨xs, (ih 0 xs).mpr ⟨by simpa using h1, by simpa using h2⟩, rfl⟩
    | succ k =>
      show v ∈ (vecsF N (k + 1)).image (fun u => false :: u) ∪
          (vecsF N k).image (fun u => true :: u) ↔ _
      rw [Finset.mem_union, Finset.mem_image, Finset.mem_image]
      constructor
      · rintro (⟨u, hu, rfl⟩ | ⟨u, hu, rfl⟩)
        · obtain ⟨h1, h2⟩ := (ih _ u).mp hu
          simp [h1, h2]
        · obtain ⟨h1, h2⟩ := (ih _ u).mp hu
          simp [h1, h2]
      · rintro ⟨h1, h2⟩
        cases v with
        | nil => simp at h1
        | cons x xs =>
          cases x with
          | false =>
            left
            exact ⟨xs, (ih _ xs).mpr ⟨by simpa using h1, by simpa using h2⟩, rfl⟩
          | true =>
            right
            refine ⟨xs, (ih _ xs).mpr ⟨by simpa using h1, ?_⟩, rfl⟩
            have hc : (true :: xs).count true = xs.count true + 1 := by simp
            omega

theorem card_vecsF : ∀ (N k : Nat), (vecsF N k).card = N.choose k := by
  have hinjF : Function.Injective (fun u : List Bool => false :: u) := by
    intro a b hab
    injection hab
  have hinjT : Function.Injective (fun u : List Bool => true :: u) := by
    intro a b hab
    injection hab
  intro N
  induction N with
  | zero =>
    intro k
    cases k with
    | zero =>
      show ({[]} : Finset (List Bool)).card = Nat.choose 0 0
      simp
    | succ k =>
      show (∅ : Finset (List Bool)).card = Nat.choose 0 (k + 1)
      simp
  | succ N ih =>
    intro k
    cases k with
    | zero =>
      show ((vecsF N 0).image (fun u => false :: u)).card = Nat.choose (N + 1) 0
      rw [Finset.card_image_of_injective _ hinjF, ih 0, Nat.choose_zero_right,
        Nat.choose_zero_right]
    | succ k =>
      show ((vecsF N (k + 1)).image (fun u => false :: u) ∪
          (vecsF N k).image (fun u => true :: u)).card = Nat.choose (N + 1) (k + 1)
      have hdisj : Disjoint ((vecsF N (k + 1)).image (fun u => false :: u))
          ((vecsF N k).image (fun u => true :: u)) := by
        rw [Finset.disjoint_left]
        intro x hx hy
        rw [Finset.mem_image] at hx hy
        obtain ⟨u, _, hu⟩ := hx
        obtain ⟨u2, _, hu2⟩ := hy
        rw [← hu] at hu2
        cases hu2
      rw [Finset.card_union_of_disjoint hdisj,
        Finset.card_image_of_injective _ hinjF,
        Finset.card_image_of_injective _ hinjT, ih, ih, Nat.choose_succ_succ]
      simp only [Nat.succ_eq_add_one]
      omega

theorem vecSeq_zero (v : List Bool) : vecSeq 0 v = [v] := rfl

theorem vecSeq_succ_none {fuel : Nat} {v : List Bool} (h : nextVec v = none) :
    vecSeq (fuel + 1) v = [v] := by
  show (v :: (match nextVec v with
    | none => []
    | some v2 => vecSeq fuel v2)) = [v]
  rw [h]

theorem vecSeq_succ_some {fuel : Nat} {v w : List Bool} (h : nextVec v = some w) :
    vecSeq (fuel + 1) v = v :: vecSeq fuel w := by
  show (v :: (match nextVec v with
    | none => []
    | some v2 => vecSeq fuel v2)) = v :: vecSeq fuel w
  rw [h]

theorem rank_bound_simple {v : List Bool} {N k : Nat} (hlen : v.length = N)
    (hcnt : v.count true = k) : vrank v 0 0 + 1 ≤ Nat.choose N k := by
  have h := vrank_bound v 0 0
  rw [hlen, hcnt, show (0 : Nat) + N = N from by omega,
    show (0 : Nat) + k = k from by omega] at h
  simpa using h

theorem vecSeq_none_rank {v : List Bool} {N k : Nat} (hlen : v.length = N)
    (hcnt : v.count true = k) (hk : 0 < k) (hnext : nextVec v = none) :
    vrank v 0 0 + 1 = Nat.choose N k := by
  have hshape := nextVec_none_shape (by omega) hnext
  rw [hlen, hcnt] at hshape
  have hkN : k ≤ N := by
    have := List.count_le_length (a := true) (l := v)
    omega
  rw [hshape]
  exact rank_lastVec N k hkN

theorem vecSeq_spec :
    ∀ (fuel : Nat) (v : List Bool) (N k : Nat),
      v.length = N → v.count true = k → 0 < k →
      Nat.choose N k ≤ fuel + vrank v 0 0 + 1 →
      ((vecSeq fuel v).length + vrank v 0 0 = Nat.choose N k ∧
        (∀ w ∈ vecSeq fuel v,
          w.length = N ∧ w.count true = k ∧ vrank v 0 0 ≤ vrank w 0 0) ∧
        List.Pairwise (fun x y => vrank x 0 0 < vrank y 0 0) (vecSeq fuel v)) := by
  intro fuel
  induction fuel with
  | zero =>
    intro v N k hlen hcnt hk hfuel
    cases hnext : nextVec v with
    | none =>
      have hr := vecSeq_none_rank hlen hcnt hk hnext
      rw [vecSeq_zero]
      refine ⟨by simpa using by omega, ?_, by simp⟩
      intro w hw
      have hw' : w = v := by simpa using hw
      subst hw'
      exact ⟨hlen, hcnt, le_refl _⟩
    | some w =>
      exfalso
      obtain ⟨hrank, hwlen, hwcnt⟩ := rank_next hnext
      have hb := rank_bound_simple (hwlen.trans hlen) (hwcnt.trans hcnt)
      omega
  | succ fuel ih =>
    intro v N k hlen hcnt hk hfuel
    cases hnext : nextVec v with
    | none =>
      have hr := vecSeq_none_rank hlen hcnt hk hnext
      rw [vecSeq_succ_none hnext]
      refine ⟨by simpa using by omega, ?_, by simp⟩
      intro w hw
      have hw' : w = v := by simpa using hw
      subst hw'
      exact ⟨hlen, hcnt, le_refl _⟩
    | some w =>
      obtain ⟨hrank, hwlen, hwcnt⟩ := rank_next hnext
      have hih := ih w N k (hwlen.trans hlen) (hwcnt.trans hcnt) hk (by omega)
      obtain ⟨hlen2, hmem2, hpw2⟩ := hih
      rw [vecSeq_succ_some hnext]
      refine ⟨?_, ?_, ?_⟩
      · rw [List.length_cons]
        omega
      · intro x hx
        rw [List.mem_cons] at hx
        rcases hx with rfl | hx
        · exact ⟨hlen, hcnt, le_refl _⟩
        · obtain ⟨ha, hb, hc⟩ := hmem2 x hx
          exact ⟨ha, hb, by omega⟩
      · rw [List.pairwise_cons]
        refine ⟨?_, hpw2⟩
        intro x hx
        have := (hmem2 x hx).2.2
        omega

theorem firstVec_length (N k : Nat) (hkN : k ≤ N) : (firstVec N k).length = N := by
  simp [firstVec]
  omega

theorem firstVec_count (N k : Nat) : (firstVec N k).count true = k := by
  simp [firstVec, List.count_append, List.count_replicate]

theorem nextVec_enumerates (N k : Nat) (hk : 0 < k) (hkN : k ≤ N) :
    (vecSeq (Nat.choose N k) (firstVec N k)).length = Nat.choose N k ∧
    (vecSeq (Nat.choose N k) (firstVec N k)).Nodup ∧
    (∀ v : List Bool, v ∈ vecSeq (Nat.choose N k) (firstVec N k) ↔
      (v.length = N ∧ v.count true = k)) := by
  classical
  have h1 : (firstVec N k).length = N := firstVec_length N k hkN
  have h2 : (firstVec N k).count true = k := firstVec_count N k
  have hrk : vrank (firstVec N k) 0 0 = 0 := rank_firstVec N k
  have hch : 1 ≤ Nat.choose N k := Nat.choose_pos hkN
  obtain ⟨hlen, hmem, hpw⟩ :=
    vecSeq_spec (Nat.choose N k) (firstVec N k) N k h1 h2 hk (by omega)
  have hL : (vecSeq (Nat.choose N k) (firstVec N k)).length = Nat.choose N k := by
    omega
  have hnd : (vecSeq (Nat.choose N k) (firstVec N k)).Nodup := by
    refine hpw.imp ?_
    intro a b hab he
    rw [he] at hab
    omega
  refine ⟨hL, hnd, ?_⟩
  intro v
  constructor
  · intro hv
    exact ⟨(hmem v hv).1, (hmem v hv).2.1⟩
  · rintro ⟨hva, hvb⟩
    have hsub : (vecSeq (Nat.choose N k) (firstVec N k)).toFinset ⊆ vecsF N k := by
      intro x hx
      rw [List.mem_toFinset] at hx
      exact (mem_vecsF N k x).mpr ⟨(hmem x hx).1, (hmem x hx).2.1⟩
    have hcards : (vecsF N k).card ≤
        ((vecSeq (Nat.choose N k) (firstVec N k)).toFinset).card := by
      rw [List.toFinset_card_of_nodup hnd, hL, card_vecsF]
    have heq := Finset.eq_of_subset_of_card_le hsub hcards
    have hvmem : v ∈ (vecSeq (Nat.choose N k) (firstVec N k)).toFinset := by
      rw [heq]
      exact (mem_vecsF N k v).mpr ⟨hva, hvb⟩
    rwa [List.mem_toFinset] at hvmem

theorem cellsList_length (p : Puzzle) : (cellsList p).length = p.w * p.h := by
  unfold cellsList
  rw [List.length_flatMap]
  simp only [Function.comp_def, List.length_map, List.length_range, List.map_const']
  rw [List.sum_replicate, smul_eq_mul]
  ring

theorem start_not_mem_skipCells (p : Puzzle) : p.start ∉ skipCells p := by
  unfold skipCells
  intro h
  rw [List.mem_filter] at h
  have h2 := h.2
  simp at h2

theorem skipCells_length (p : Puzzle) (hs : inGrid p p.start = true) :
    (skipCells p).length = p.w * p.h - 1 := by
  have hmem : p.start ∈ cellsList p := (mem_cellsList p p.start).mpr hs
  have hnd := cellsList_nodup p
  have he : (cellsList p).erase p.start =
      (cellsList p).filter (· != p.start) := hnd.erase_eq_filter p.start
  have hf : (fun c : Cell => decide (c ≠ p.start)) = (· != p.start) := by
    funext c
    simp only [bne, decide_not]
    rw [Bool.eq_iff_iff]
    simp [beq_iff_eq]
  unfold skipCells
  rw [hf, ← he, List.length_erase_of_mem hmem, cellsList_length]

/-- C3: the brute-force enumeration is complete and duplicate-free. The
obstacle configurations over the `w*h - 1` non-start cells (in
`SkipStartIterator` order) form Boolean vectors; starting from
`first_puzzle`'s vector (the first `k` positions) and repeatedly applying
`next_puzzle`'s successor step until it fails visits exactly
`C(w*h - 1, k)` vectors, pairwise distinct, and they are exactly the vectors
with `k` obstacles; the start cell is never an obstacle since it is excluded
from the cell sequence. -/
theorem brute_force_enumerates (p : Puzzle) (k : Nat) (hk : 0 < k)
    (hkN : k ≤ p.w * p.h - 1) (hs : inGrid p p.start = true) :
    p.start ∉ skipCells p ∧
    (skipCells p).length = p.w * p.h - 1 ∧
    (vecSeq (Nat.choose (p.w * p.h - 1) k) (firstVec (p.w * p.h - 1) k)).length =
      Nat.choose (p.w * p.h - 1) k ∧
    (vecSeq (Nat.choose (p.w * p.h - 1) k) (firstVec (p.w * p.h - 1) k)).Nodup ∧
    (∀ v : List Bool,
      v ∈ vecSeq (Nat.choose (p.w * p.h - 1) k) (firstVec (p.w * p.h - 1) k) ↔
        (v.length = p.w * p.h - 1 ∧ v.count true = k)) := by
  obtain ⟨h1, h2, h3⟩ := nextVec_enumerates (p.w * p.h - 1) k hk hkN
  exact ⟨start_not_mem_skipCells p, skipCells_length p hs, h1, h2, h3⟩

/-- Witness for C3 on the 2×2 grid with one obstacle: three non-start cells,
`C(3, 1) = 3` configurations enumerated without repetition. -/
theorem brute_force_enumerates_witness :
    (emptyPuzzle 2 2 (0, 0)).start ∉ skipCells (emptyPuzzle 2 2 (0, 0)) ∧
    (skipCells (emptyPuzzle 2 2 (0, 0))).length = 3 ∧
    (vecSeq (Nat.choose 3 1) (firstVec 3 1)).length = Nat.choose 3 1 ∧
    (vecSeq (Nat.choose 3 1) (firstVec 3 1)).Nodup := by
  obtain ⟨h1, h2, h3, h4, _⟩ :=
    brute_force_enumerates (emptyPuzzle 2 2 (0, 0)) 1 (by decide) (by decide)
      (by decide)
  exact ⟨h1, h2, h3, h4⟩

end IceSliding
